import Mathlib

/-!
Verification of the two specialization generators of this repository:
`generate/generate_js.py` (Tree Form / JSON output) and
`generate/generate_mm.py` (Graph Form / mindmap output).

The specialization data model and the traversal engine
(`utils_model.py`, `utils_parser.py`) are not part of this repository's
sources; they are modelled from the spec (section 3 "DATA MODEL" and
section 4.1 "Traversal Engine"): a fixed typed node hierarchy
root -> topics -> (subprocesses / property sets / properties) -> enums
-> choices, walked depth-first in declaration order, firing one typed
enter event per node (plus a root exit event consumed by the Tree-Form
builder).  Back-references that the handlers read off the visited node
(`prop.owner`, `prop.root_topic`, `subprocess.parent`,
`choice.enum.detail`, `prop_set.owner`) are carried on the events,
computed from the traversal context, exactly as a well-formed model
stores them.

The two generator classes themselves are translated directly from the
source files.  Python object identity (used to key the fragment caches
`self._maps` and `self.nodes`) is modelled by the node id strings;
well-formedness hypotheses require the relevant ids to be distinct,
matching the spec's invariant that node identity is a usable cache key.
-/

/-! ## Python string helpers (structural, so that they evaluate) -/

/-- Split a character list at every occurrence of `c` (Python `str.split(c)`:
always at least one piece, empty pieces kept). -/

def splitChar (c : Char) : List Char → List (List Char)
  | [] => [[]]
  | x :: xs =>
    let r := splitChar c xs
    if x = c then [] :: r
    else
      match r with
      | [] => [[x]]
      | h :: t => (x :: h) :: t

/-- Python `s.split(c)` for a one-character separator. -/

def pySplit (c : Char) (s : String) : List String :=
  (splitChar c s.data).map (fun l => String.mk l)

/-- Whitespace test used by Python `str.strip()`. -/

def isPySpace (ch : Char) : Bool := ch = ' ' ∨ ch = '\t' ∨ ch = '\n' ∨ ch = '\r'

/-- Python `s.strip()`. -/

def pyStrip (s : String) : String :=
  String.mk ((s.data.dropWhile isPySpace).reverse.dropWhile isPySpace).reverse

/-- Replace every occurrence of the character `c` by the string `r`
(Python `s.replace("&", "and")` for the one-character pattern used in the
source). -/

def replaceChar (c : Char) (r : String) : List Char → List Char
  | [] => []
  | x :: xs => (if x = c then r.data else [x]) ++ replaceChar c r xs

/-- Python `s.replace(c, r)` for a one-character pattern. -/

def pyReplaceChar (c : Char) (r : String) (s : String) : String :=
  String.mk (replaceChar c r s.data)

/-- Python `str(b)` on a bool. -/

def pyStrBool (b : Bool) : String := if b then "True" else "False"

/-- Python `str(b).lower()` on a bool. -/

def pyStrBoolLower (b : Bool) : String := if b then "true" else "false"

/-! ## Specialization data model (modelled from the spec, section 3)

Node kinds and attributes follow the spec's data-model table: Root
(id, name, description, contact, authors, contributors, change history,
sub-topics), Topic in kinds grid / key-properties / process
(id, name, description, contact, children), Subprocess, PropertySet
(with the "members are inherited/injected" flag `are_cim_properties`),
Property (with the `was_injected` flag and an optional Enum), Enum
(name, description, `is_open` flag, choices), EnumChoice
(description, value).  Every node carries an optional `url`
(the Graph-Form builder probes for it on every node).  Descriptions are
optional (the Graph-Form notes render a missing one as "N/A"). -/

/-- One change-history entry of the root: a (version, date, author, note)
tuple, in that order. -/

structure ChangeEntry where
  version : String
  date : String
  author : String
  note : String

/-- An enumeration choice. -/

structure ChoiceData where
  id : String
  value : String
  description : Option String
  url : Option String
deriving DecidableEq

/-- An enumeration attached to a property.  Its `detail` back-reference
(the owning property) is supplied by the traversal context. -/

structure EnumData where
  name : String
  description : Option String
  is_open : Bool
  choices : List ChoiceData
deriving DecidableEq

/-- A property. -/

structure PropData where
  id : String
  name : String
  description : Option String
  cardinality : String
  typeof : String
  was_injected : Bool
  enum : Option EnumData
  url : Option String
deriving DecidableEq

/-- A property set; `are_cim_properties` is the
"members are wholly inherited/injected" flag. -/

structure PSData where
  id : String
  name : String
  description : Option String
  are_cim_properties : Bool
  properties : List PropData
  url : Option String

/-- A child of a subprocess: a property set or a bare property. -/

inductive SubItem where
  | psI (ps : PSData)
  | propI (p : PropData)

/-- A subprocess. -/

structure SubData where
  id : String
  name : String
  description : Option String
  items : List SubItem
  url : Option String

/-- Topic kinds (the root itself is the realm). -/

inductive TopicKind where
  | grid
  | keyprops
  | process
deriving DecidableEq

/-- The section key (`type_key`) of a topic kind. -/

def TopicKind.typeKey : TopicKind → String
  | .grid => "grid"
  | .keyprops => "keyprops"
  | .process => "process"

/-- A child of a topic: a property set, a bare property, or a subprocess. -/

inductive TopicItem where
  | psT (ps : PSData)
  | propT (p : PropData)
  | subT (s : SubData)

/-- A topic (grid / key properties / process). -/

structure Topic where
  kind : TopicKind
  id : String
  name : String
  description : Option String
  contact : String
  items : List TopicItem
  url : Option String

/-- The root of a specialization (the realm document).  `authors` and
`contributors` are comma-separated strings, as consumed by
`on_root_parse` (`root.authors.split(',')`). -/

structure RootSpec where
  id : String
  type_key : String
  name : String
  description : Option String
  contact : String
  authors : String
  contributors : String
  change_history : List ChangeEntry
  sub_topics : List Topic
  url : Option String

/-! ## Traversal events (modelled from the spec, section 4.1)

One typed enter event per node, in document (declaration) order, plus the
root exit event `rootParsed` that `generate_js.py` handles.  The other
exit events of the engine have no handler in either generator and would
be no-ops, so they are omitted from the event stream.  Each event carries
the node payload together with the back-references its handlers read
(owner / root topic / parent / enum detail), as computed from the
traversal context. -/

inductive Event where
  | rootParse (r : RootSpec)
  | rootParsed (r : RootSpec)
  | topicParse (t : Topic)
  | subprocessParse (s : SubData) (parentId : String)
  | propertySetParse (ps : PSData) (ownerId : String)
  | propertyParse (p : PropData) (ownerId : String) (rootTopicId : String)
  | enumChoiceParse (c : ChoiceData) (detailId : String)

/-- Events of a property: its own enter event followed by one enter event
per choice of its enum (the choice's `enum.detail` back-reference is the
property). -/

def propEvents (ownerId rootTopicId : String) (p : PropData) : List Event :=
  Event.propertyParse p ownerId rootTopicId ::
    (match p.enum with
     | some e => e.choices.map (fun c => Event.enumChoiceParse c p.id)
     | none => [])

/-- Events of a subprocess child. -/

def subItemEvents (sid rootTopicId : String) : SubItem → List Event
  | .psI ps =>
      Event.propertySetParse ps sid ::
        (ps.properties.map (propEvents ps.id rootTopicId)).flatten
  | .propI p => propEvents sid rootTopicId p

/-- Events of a topic child. -/

def topicItemEvents (tid : String) : TopicItem → List Event
  | .psT ps =>
      Event.propertySetParse ps tid ::
        (ps.properties.map (propEvents ps.id tid)).flatten
  | .propT p => propEvents tid tid p
  | .subT s =>
      Event.subprocessParse s tid ::
        (s.items.map (subItemEvents s.id tid)).flatten

/-- Events of a topic subtree. -/

def topicEvents (t : Topic) : List Event :=
  Event.topicParse t :: (t.items.map (topicItemEvents t.id)).flatten

/-- The full event stream of one traversal run. -/

def rootEvents (r : RootSpec) : List Event :=
  Event.rootParse r ::
    ((r.sub_topics.map topicEvents).flatten ++ [Event.rootParsed r])

/-! ## JSON values (ordered objects, as `collections.OrderedDict`) -/

inductive JValue where
  | jnull
  | jstr (s : String)
  | jbool (b : Bool)
  | jarr (elems : List JValue)
  | jobj (fields : List (String × JValue))

/-- A Python value that may be `None`. -/

def jOfOpt : Option String → JValue
  | none => JValue.jnull
  | some s => JValue.jstr s

/-- Ordered-association-list lookup (Python `d[k]`, first-match). -/

def getVal {α : Type} (l : List (String × α)) (k : String) : Option α :=
  match l with
  | [] => none
  | (k', v) :: t => if k' = k then some v else getVal t k

/-- Ordered-association-list assignment (Python `d[k] = v`): update the
existing binding in place, else append a new binding at the end —
exactly the insertion-order behaviour of a Python (ordered) dict. -/

def setVal {α : Type} (l : List (String × α)) (k : String) (v : α) :
    List (String × α) :=
  match l with
  | [] => [(k, v)]
  | (k', v') :: t => if k' = k then (k, v) :: t else (k', v') :: setVal t k v

/-- The ordered key list of an object fragment (`[]` on non-objects). -/

def fragKeys : JValue → List String
  | .jobj fs => fs.map Prod.fst
  | _ => []

/-- Field lookup on an object fragment. -/

def lookupField (j : JValue) (k : String) : Option JValue :=
  match j with
  | .jobj fs => getVal fs k
  | _ => none

/-- Python `obj[k].append(v)` for a list-valued field `k` of an ordered
mapping: fails (KeyError / AttributeError) unless the field exists and
holds a list. -/

def appendToField (j : JValue) (k : String) (v : JValue) :
    Except String JValue :=
  match j with
  | .jobj fs =>
    match getVal fs k with
    | some (.jarr xs) => .ok (.jobj (setVal fs k (.jarr (xs ++ [v]))))
    | some _ => .error ("AttributeError: append on field " ++ k)
    | none => .error ("KeyError: " ++ k)
  | _ => .error "TypeError: not a mapping"

/-! ## Tree-Form generator (translated from `generate/generate_js.py`)

`get_label` is the external label-formatting collaborator (out of scope
per the spec); every definition is parameterised over it as `gl`. -/

/-- `_get_change` inside `on_root_parse`: one ordered mapping per
change-history tuple, fields `version, date, author, note`. -/

def changeObj (i : ChangeEntry) : JValue :=
  .jobj [("version", .jstr i.version), ("date", .jstr i.date),
         ("author", .jstr i.author), ("note", .jstr i.note)]

/-- The ordered mapping built by `on_root_parse`. -/

def rootObj (gl : String → String) (r : RootSpec) : JValue :=
  .jobj [("id", .jstr r.id),
         ("label", .jstr (gl r.name)),
         ("description", jOfOpt r.description),
         ("contact", .jstr r.contact),
         ("authors", .jarr ((pySplit ',' r.authors).map
            (fun i => .jstr (pyStrip i)))),
         ("contributors", .jarr ((pySplit ',' r.contributors).map
            (fun i => .jstr (pyStrip i)))),
         ("project", .jstr "cordex"),
         ("changeHistory", .jarr (r.change_history.map changeObj)),
         ("subTopics", .jarr [])]

/-- The ordered mapping built by `on_topic_parse` (shared by the grid,
key-properties and process handlers). -/

def topicObj (gl : String → String) (t : Topic) : JValue :=
  .jobj [("id", .jstr t.id),
         ("label", .jstr (gl t.name)),
         ("description", jOfOpt t.description),
         ("contact", .jstr t.contact),
         ("properties", .jarr [])]

/-- `_get_enum`: the enumeration encoded as a dictionary.  Note that the
`id` field is set from `enum.description` in the source. -/

def enumObj (gl : String → String) (e : EnumData) : JValue :=
  .jobj [("id", jOfOpt e.description),
         ("label", .jstr (gl e.name)),
         ("description", jOfOpt e.description),
         ("is_open", .jbool e.is_open),
         ("choices", .jarr (e.choices.map (fun c =>
            .jobj [("description", jOfOpt c.description),
                   ("value", .jstr c.value)])))]

/-- The ordered mapping built by `on_property_parse`: the label joins the
label-formatted tail segments of the dotted id (all segments after the
third); the `type` field is "enum" when an enumeration is present, else
the declared type name; the injected flag is surfaced under the key
`is_cim_property`. -/

def propObj (gl : String → String) (p : PropData) : JValue :=
  .jobj ([("id", .jstr p.id),
          ("label", .jstr (String.intercalate " > "
             (((pySplit '.' p.id).drop 3).map gl))),
          ("description", jOfOpt p.description),
          ("cardinality", .jstr p.cardinality),
          ("type", .jstr (match p.enum with
                          | some _ => "enum"
                          | none => p.typeof)),
          ("is_cim_property", .jbool p.was_injected)] ++
         (match p.enum with
          | some e => [("enum", enumObj gl e)]
          | none => []))

/-- The Tree-Form generator state: the fragment cache `self._maps`,
keyed by node identity (modelled by node ids). -/

structure JSState where
  maps : List (String × JValue)

/-- Run a fallible step function over a list, stopping at the first
error (the event loop driving a generator's handlers). -/

def exRun {σ α : Type} (f : σ → α → Except String σ) (st : σ) :
    List α → Except String σ
  | [] => .ok st
  | x :: xs =>
    match f st x with
    | .ok st' => exRun f st' xs
    | .error e => .error e

/-- Fetch the cached fragments of a list of topics
(`[self._maps[i] for i in self.root.sub_topics]`). -/

def fetchFrags (maps : List (String × JValue)) :
    List Topic → Except String (List JValue)
  | [] => .ok []
  | t :: ts =>
    match getVal maps t.id with
    | none => .error ("KeyError: " ++ t.id)
    | some frag =>
      match fetchFrags maps ts with
      | .ok frags => .ok (frag :: frags)
      | .error e => .error e

/-- One event step of the Tree-Form generator.  Only the root, topic,
property and root-exit events have handlers; the others are no-ops.
`on_property_parse` appends the property fragment to the `properties`
list of the fragment cached for the property's root topic;
`on_root_parsed` fetches each sub-topic's cached fragment and appends it
to the root fragment's `subTopics` list. -/

def jsStep (gl : String → String) (st : JSState) : Event → Except String JSState
  | .rootParse r => .ok ⟨setVal st.maps r.id (rootObj gl r)⟩
  | .topicParse t => .ok ⟨setVal st.maps t.id (topicObj gl t)⟩
  | .propertyParse p _ rootTopicId =>
    match getVal st.maps rootTopicId with
    | none => .error ("KeyError: " ++ rootTopicId)
    | some frag => do
      let frag' ← appendToField frag "properties" (propObj gl p)
      .ok ⟨setVal st.maps rootTopicId frag'⟩
  | .rootParsed r => do
    let frags ← fetchFrags st.maps r.sub_topics
    let rootFrag ← (match getVal st.maps r.id with
      | none => .error ("KeyError: " ++ r.id)
      | some frag => .ok frag)
    let rootFrag' ← exRun
      (fun acc frag => appendToField acc "subTopics" frag) rootFrag frags
    .ok ⟨setVal st.maps r.id rootFrag'⟩
  | _ => .ok st

/-- One full Tree-Form generation run over the traversal's event stream. -/

def jsRun (gl : String → String) (r : RootSpec) : Except String JSState :=
  exRun (jsStep gl) ⟨[]⟩ (rootEvents r)

/-- The root fragment after a run (`self._maps[self.root]`). -/

def jsFinalFrag (gl : String → String) (r : RootSpec) : Option JValue :=
  match jsRun gl r with
  | .ok st => getVal st.maps r.id
  | .error _ => none

/-! ## Graph-Form generator (translated from `generate/generate_mm.py`) -/

/-- One style record of the `_CONFIG` table. -/

structure StyleCfg where
  bgColor : String
  fontBold : Bool
  fontColor : String
  fontName : String
  fontSize : Nat
  isCollapsed : Bool
  descr : String

/-- The static `_CONFIG` table (section key -> style record). -/

def cfgFind : String → Option StyleCfg
  | "model" => some ⟨"#F5A9BC", true, "#000000", "courier", 14, false,
      "A model component."⟩
  | "realm" => some ⟨"#66cc00", true, "#000000", "courier", 14, false,
      "Scientific area of a numerical model."⟩
  | "grid" => some ⟨"#ccccff", true, "#000000", "courier", 12, false,
      "The grid used to layout the variables (e.g. the Global ENDGAME-grid)."⟩
  | "keyprops" => some ⟨"#ffff66", true, "#000000", "courier", 12, false,
      "Realm key properties which differ from model defaults (grid, timestep etc)."⟩
  | "process" => some ⟨"#FFFFFF", true, "#000000", "courier", 12, false,
      "Process simulated within the realm."⟩
  | "subprocess" => some ⟨"#ACF0F2", true, "#000000", "courier", 12, false,
      "A sub-process simulated within a realm process."⟩
  | "property-set" => some ⟨"#F3FFE2", true, "#000000", "courier", 10, true,
      "Provides details of specific properties of a process, sub-process, key properties, etc.  There are two possible specialisations expected: (1) A detail_vocabulary is identified, and a cardinality is assigned to that for possible responses; (2) Detail is used to provide a collection or a set of properties which are defined in the sub-class."⟩
  | "property" => some ⟨"#C9D787", true, "#000000", "courier", 10, true,
      "A property associated with a detail defined as a 4 member tuple: name, type, cardinality, description."⟩
  | "enum-choice" => some ⟨"#FFFFFF", true, "#000000", "courier", 10, true,
      "A choice within an enumeration."⟩
  | _ => none

/-- The `_SECTIONS` ordered table's keys, in insertion order
(`TYPE_KEY_*` constants are modelled from the spec's section-key list). -/

def SECTIONS : List String :=
  ["enum-choice", "grid", "keyprops", "process", "property",
   "property-set", "realm", "subprocess"]

/-- The node being emitted, as passed to `_emit_node` / `_emit_notes` /
`_get_notes`; the constructor records the Python runtime type that
`_get_notes` dispatches on via `isinstance` (a `PropertySpecialization`,
or a `TopicSpecialization` whose `parent` is `None` — the root). -/

inductive MMOwner where
  | ofRoot (r : RootSpec)
  | ofTopic (t : Topic)
  | ofSub (s : SubData)
  | ofPS (ps : PSData)
  | ofProp (p : PropData)
  | ofChoice (c : ChoiceData)

/-- The owner's id (its cache key in `self.nodes` and its `Spec. ID`). -/

def MMOwner.oid : MMOwner → String
  | .ofRoot r => r.id
  | .ofTopic t => t.id
  | .ofSub s => s.id
  | .ofPS ps => ps.id
  | .ofProp p => p.id
  | .ofChoice c => c.id

/-- The owner's `name` attribute (default node text). -/

def MMOwner.oname : MMOwner → String
  | .ofRoot r => r.name
  | .ofTopic t => t.name
  | .ofSub s => s.name
  | .ofPS ps => ps.name
  | .ofProp p => p.name
  | .ofChoice c => c.value

/-- The owner's `type_key` attribute (the `_CONFIG` section key). -/

def MMOwner.typeKey : MMOwner → String
  | .ofRoot r => r.type_key
  | .ofTopic t => t.kind.typeKey
  | .ofSub _ => "subprocess"
  | .ofPS _ => "property-set"
  | .ofProp _ => "property"
  | .ofChoice _ => "enum-choice"

/-- The owner's optional `url` attribute (`_emit_node` probes for it with
a `try`/`except AttributeError`). -/

def MMOwner.ourl : MMOwner → Option String
  | .ofRoot r => r.url
  | .ofTopic t => t.url
  | .ofSub s => s.url
  | .ofPS ps => ps.url
  | .ofProp p => p.url
  | .ofChoice c => c.url

/-- The owner's optional `description` attribute. -/

def MMOwner.odescription : MMOwner → Option String
  | .ofRoot r => r.description
  | .ofTopic t => t.description
  | .ofSub s => s.description
  | .ofPS ps => ps.description
  | .ofProp p => p.description
  | .ofChoice c => c.description

/-- The `Description` note value: "N/A" for a missing description, else
the description with ampersands replaced by "and". -/

def descNoteValue (d : Option String) : String :=
  match d with
  | none => "N/A"
  | some s => pyReplaceChar '&' "and" s

/-- `_get_notes`, with the note value functions already applied to the
owner (in `_emit_notes` every model node owner has an `id` attribute, so
the `value = value(owner)` branch is always taken): the default notes
`Description` and `Spec. ID`; a property additionally gets `Type`,
`Cardinality` and `Specialization ID`; the root (a topic specialization
with no parent) additionally gets `Contact`, `Authors` and
`Contributors`. -/

def getNotes : MMOwner → List (String × String)
  | .ofProp p =>
      [("Description", descNoteValue p.description), ("Spec. ID", p.id),
       ("Type", p.typeof), ("Cardinality", p.cardinality),
       ("Specialization ID", p.id)]
  | .ofRoot r =>
      [("Description", descNoteValue r.description), ("Spec. ID", r.id),
       ("Contact", r.contact), ("Authors", r.authors),
       ("Contributors", r.contributors)]
  | o => [("Description", descNoteValue o.odescription), ("Spec. ID", o.oid)]

/-- One element of the mindmap document.  `ElementTree` elements are
modelled flat: each element gets a fresh numeric key, a parent key
(`none` for the root `map` element), its tag and attribute list (in
insertion order); children are the elements pointing at it, in creation
order — exactly the structure `ET.SubElement` builds.  A `richcontent`
element stores the note key/value pairs from which its HTML body is
formatted.  `src` records which model node an element was created for
(`none` for the `map` element and the synthetic legend / change-history
elements); it models Python object provenance and is ignored by
serialization. -/

structure XElem where
  key : Nat
  parent : Option Nat
  tag : String
  attrs : List (String × String)
  notes : List (String × String)
  src : Option MMOwner

/-- The Graph-Form generator state: the elements created so far (in
creation order), the next fresh key, and the node cache `self.nodes`
(model node identity -> element key). -/

structure MMState where
  elems : List XElem
  nextKey : Nat
  nodes : List (String × Nat)

/-- A parent argument of `_emit_node`: either an `ET.Element` (given by
key) or a model node to be resolved through `self.nodes`. -/

inductive ParentRef where
  | elemKey (k : Nat)
  | nodeRef (id : String)

/-- `if not isinstance(parent, ET.Element): parent = self.nodes[parent]`;
a missing cache entry is a KeyError. -/

def resolveParent (st : MMState) : ParentRef → Except String Nat
  | .elemKey k => .ok k
  | .nodeRef i =>
    match getVal st.nodes i with
    | some k => .ok k
    | none => .error ("KeyError: " ++ i)

/-- The `font` sub-element attributes from a style record. -/

def fontAttrs (cfg : StyleCfg) : List (String × String) :=
  [("BOLD", pyStrBool cfg.fontBold), ("NAME", cfg.fontName),
   ("SIZE", toString cfg.fontSize)]

/-- The attribute dict built by `_emit_node`: the five base attributes,
plus LINK exactly when the owner exposes a `url`. -/

def nodeAttrsOf (cfg : StyleCfg) (style text : String) (url : Option String) :
    List (String × String) :=
  [("FOLDED", pyStrBoolLower cfg.isCollapsed),
   ("COLOR", cfg.fontColor),
   ("BACKGROUND_COLOR", cfg.bgColor),
   ("STYLE", style),
   ("TEXT", text)] ++
  (match url with
   | some u => [("LINK", u)]
   | none => [])

/-- `_emit_node`: look up the style record by the owner's `type_key`
(a missing record is a KeyError on `is-collapsed`, since `get_section`
returns `{}`), build the attribute dict (FOLDED, COLOR,
BACKGROUND_COLOR, STYLE, TEXT, and LINK only when the owner exposes a
`url`), resolve the parent, create and cache the node, then emit its
font sub-element (`_emit_font`) and its notes block (`_emit_notes`). -/

def emitNode (st : MMState) (parent : ParentRef) (o : MMOwner)
    (text : Option String) (style : String) : Except String MMState := do
  let cfg ← (match cfgFind o.typeKey with
    | some cfg => Except.ok cfg
    | none => Except.error "KeyError: is-collapsed")
  let atts := nodeAttrsOf cfg style (text.getD o.oname) o.ourl
  let pk ← resolveParent st parent
  let k := st.nextKey
  .ok ⟨st.elems ++
        [⟨k, some pk, "node", atts, [], some o⟩,
         ⟨k + 1, some k, "font", fontAttrs cfg, [], some o⟩,
         ⟨k + 2, some k, "richcontent", [("TYPE", "NOTE")], getNotes o,
          some o⟩],
       k + 3,
       setVal st.nodes o.oid k⟩

/-- `_emit_notes` on a model node owner (the explicit second calls in
`on_process_parse` and `on_property_parse`): append one `richcontent`
block under the owner's cached node. -/

def emitNotesOwner (st : MMState) (o : MMOwner) : Except String MMState :=
  match getVal st.nodes o.oid with
  | none => .error ("KeyError: " ++ o.oid)
  | some pk =>
    .ok ⟨st.elems ++
          [⟨st.nextKey, some pk, "richcontent", [("TYPE", "NOTE")],
            getNotes o, some o⟩],
         st.nextKey + 1, st.nodes⟩

/-- `_emit_notes` on a raw element with explicit note pairs (legend and
change-history children): the owner has no `id` attribute, so the values
are used as given. -/

def emitNotesAt (st : MMState) (pk : Nat) (notes : List (String × String)) :
    MMState :=
  ⟨st.elems ++
    [⟨st.nextKey, some pk, "richcontent", [("TYPE", "NOTE")], notes, none⟩],
   st.nextKey + 1, st.nodes⟩

/-- Append one plain `node` element (`ET.SubElement(..., 'node', atts)`
as used by the legend and change-history emitters). -/

def addPlainNode (st : MMState) (pk : Nat) (atts : List (String × String)) :
    MMState :=
  ⟨st.elems ++ [⟨st.nextKey, some pk, "node", atts, [], none⟩],
   st.nextKey + 1, st.nodes⟩

/-- The loop body of `_emit_change_history`: one child node per
change-history entry (text = the version), annotated with the four note
fields Version, Date, Person, Comment, in that order. -/

def chBody (chKey : Nat) (acc : MMState) (ch : ChangeEntry) : MMState :=
  let nodeKey := acc.nextKey
  let acc1 := addPlainNode acc chKey
    [("STYLE", "bubble"), ("TEXT", ch.version)]
  emitNotesAt acc1 nodeKey
    [("Version", ch.version), ("Date", ch.date),
     ("Person", ch.author), ("Comment", ch.note)]

/-- `_emit_change_history` (continued): the whole handler. -/

def emitChangeHistory (st : MMState) (r : RootSpec) : Except String MMState :=
  match getVal st.nodes r.id with
  | none => .error ("KeyError: " ++ r.id)
  | some rk =>
    let chKey := st.nextKey
    let st1 := addPlainNode st rk
      [("FOLDED", "true"), ("STYLE", "bubble"),
       ("TEXT", "CHANGE HISTORY"), ("POSITION", "left")]
    .ok (r.change_history.foldl (chBody chKey) st1)

/-- The loop body of `_emit_legend`: one child node per `_SECTIONS`
entry, coloured from that section's style record and annotated with its
description. -/

def legBody (legKey : Nat) (acc : MMState) (s : String) :
    Except String MMState :=
  match cfgFind s with
  | none => .error "KeyError: section"
  | some cfg =>
    let nodeKey := acc.nextKey
    let acc1 := addPlainNode acc legKey
      [("BACKGROUND_COLOR", cfg.bgColor), ("COLOR", cfg.fontColor),
       ("STYLE", "bubble"), ("TEXT", s)]
    .ok (emitNotesAt acc1 nodeKey [("Description", cfg.descr)])

/-- `_emit_legend`: a folded left-positioned "LEGEND" node under the
root's node, one child per `_SECTIONS` entry. -/

def emitLegend (st : MMState) (r : RootSpec) : Except String MMState :=
  match getVal st.nodes r.id with
  | none => .error ("KeyError: " ++ r.id)
  | some rk =>
    let legKey := st.nextKey
    let st1 := addPlainNode st rk
      [("FOLDED", "true"), ("STYLE", "bubble"),
       ("TEXT", "LEGEND"), ("POSITION", "left")]
    exRun (legBody legKey) st1 SECTIONS

/-- One event step of the Graph-Form generator, following the source
handlers: `on_root_parse` creates the `map` element, emits the root's
node, then the change history, then the legend; the topic handlers
attach under the root's node (with an extra explicit notes block for a
process); a subprocess attaches under its parent process; a property set
attaches under its owner unless its members are inherited; a property
attaches under its owner unless it was injected (with an extra explicit
notes block); an enum choice attaches under its enum's detail node, with
its value as text.  `rootId` models `self.root`, the root node stored by
the generator's constructor, under which the topic handlers attach. -/

def mmStep (rootId : String) (st : MMState) : Event → Except String MMState
  | .rootParse r => do
    let mapKey := st.nextKey
    let st1 : MMState :=
      ⟨st.elems ++ [⟨mapKey, none, "map", [], [], none⟩], mapKey + 1,
       st.nodes⟩
    let st2 ← emitNode st1 (.elemKey mapKey) (.ofRoot r) none "fork"
    let st3 ← emitChangeHistory st2 r
    emitLegend st3 r
  | .rootParsed _ => .ok st
  | .topicParse t => do
    let st1 ← emitNode st (.nodeRef rootId) (.ofTopic t) none "bubble"
    match t.kind with
    | .process => emitNotesOwner st1 (.ofTopic t)
    | _ => .ok st1
  | .subprocessParse s parentId =>
    emitNode st (.nodeRef parentId) (.ofSub s) none "bubble"
  | .propertySetParse ps ownerId =>
    if ps.are_cim_properties then .ok st
    else emitNode st (.nodeRef ownerId) (.ofPS ps) none "bubble"
  | .propertyParse p ownerId _ =>
    if p.was_injected then .ok st
    else do
      let st1 ← emitNode st (.nodeRef ownerId) (.ofProp p) none "bubble"
      emitNotesOwner st1 (.ofProp p)
  | .enumChoiceParse c detailId =>
    emitNode st (.nodeRef detailId) (.ofChoice c) (some c.value) "bubble"

/-- One full Graph-Form generation run over the traversal's event stream
(the generator is constructed with the root, hence `r.id` as
`self.root`). -/

def mmRun (r : RootSpec) : Except String MMState :=
  exRun (mmStep r.id) ⟨[], 0, []⟩ (rootEvents r)

/-- The elements of a successful Graph-Form run (empty on failure). -/

def mmElems (r : RootSpec) : List XElem :=
  match mmRun r with
  | .ok st => st.elems
  | .error _ => []

/-- Whether a Graph-Form run completes. -/

def mmOk (r : RootSpec) : Bool :=
  match mmRun r with
  | .ok _ => true
  | .error _ => false

/-! ## Serialization

`json.dumps` and `ET.tostring` are pure functions of the fragment /
element structure; they are realised here as deterministic recursive
renderers (exact byte fidelity with CPython's escaping is irrelevant to
every claim: the idempotence claim only needs the renderers to be
functions of their input). -/

/-- Minimal JSON string escaping (backslash and double quote). -/

def escapeJsonChar (c : Char) : List Char :=
  if c = '\\' ∨ c = '"' then ['\\', c] else [c]

/-- Quote a string as a JSON literal. -/

def jsonQuote (s : String) : String :=
  "\"" ++ String.mk ((s.data.map escapeJsonChar).flatten) ++ "\""

mutual
/-- `json.dumps` (default separators). -/
def dumps : JValue → String
  | .jnull => "null"
  | .jstr s => jsonQuote s
  | .jbool b => if b then "true" else "false"
  | .jarr xs => "[" ++ dumpsList xs ++ "]"
  | .jobj fs => "\x7b" ++ dumpsFields fs ++ "\x7d"

def dumpsList : List JValue → String
  | [] => ""
  | [x] => dumps x
  | x :: xs => dumps x ++ ", " ++ dumpsList xs

def dumpsFields : List (String × JValue) → String
  | [] => ""
  | [(k, v)] => jsonQuote k ++ ": " ++ dumps v
  | (k, v) :: fs => jsonQuote k ++ ": " ++ dumps v ++ ", " ++ dumpsFields fs
end

/-- `get_output` of the Tree-Form generator: the serialized root fragment
substituted for the TOPIC placeholder of the fixed template.  Modelled
from the spec: the template file `generate_js.template` is not under
`src/`, so its text is a parameter, and the substitution is the spec's
"substituting a placeholder token with the serialized JSON". -/

def jsOutput (gl : String → String) (template : String) (r : RootSpec) :
    Except String String := do
  let st ← jsRun gl r
  match getVal st.maps r.id with
  | none => .error ("KeyError: " ++ r.id)
  | some frag => .ok (template.replace "TOPIC" (dumps frag))

/-- Render an attribute list. -/

def xmlAttrString : List (String × String) → String
  | [] => ""
  | (k, v) :: t => " " ++ k ++ "=\"" ++ v ++ "\"" ++ xmlAttrString t

/-- Render a notes block body (`_NOTE_HTML` items inside `_NOTES_HTML`). -/

def notesHtml (notes : List (String × String)) : String :=
  "<html><head></head><body><dl>" ++
  String.intercalate ""
    (notes.map (fun kv =>
      "<dt><b>" ++ kv.1 ++ "</b></dt><dd>" ++ kv.2 ++ "</dd>")) ++
  "</dl></body></html>"

/-- Render one element subtree (children = elements whose parent pointer
names this element, in creation order); `fuel` bounds the recursion by
the element count, which bounds the tree depth. -/

def xmlNodeString (es : List XElem) : Nat → XElem → String
  | 0, _ => ""
  | fuel + 1, e =>
    "<" ++ e.tag ++ xmlAttrString e.attrs ++ ">" ++
    (match e.notes with
     | [] => ""
     | notes => notesHtml notes) ++
    String.intercalate ""
      ((es.filter (fun c => c.parent = some e.key)).map
        (xmlNodeString es fuel)) ++
    "</" ++ e.tag ++ ">"

/-- `get_output` of the Graph-Form generator: `ET.tostring(self.mmap)`,
the serialization of the element tree rooted at the `map` element. -/

def mmOutput (r : RootSpec) : Except String String := do
  let st ← mmRun r
  .ok (String.intercalate ""
    ((st.elems.filter (fun e => e.parent = none)).map
      (xmlNodeString st.elems st.elems.length)))

/-! ## Query helpers used by the statements -/

/-- Does an optional JSON value hold exactly the string `t`? -/

def isIdStr (t : String) : Option JValue → Bool
  | some (.jstr s) => s = t
  | _ => false

mutual
/-- Number of object fragments anywhere inside a JSON value whose `id`
field is the string `t` (how many fragments the output carries for the
node with id `t`). -/
def countObjs (t : String) : JValue → Nat
  | .jnull => 0
  | .jstr _ => 0
  | .jbool _ => 0
  | .jarr xs => countObjsList t xs
  | .jobj fs =>
    (if isIdStr t (getVal fs "id") then 1 else 0) + countObjsFields t fs

def countObjsList (t : String) : List JValue → Nat
  | [] => 0
  | x :: xs => countObjs t x + countObjsList t xs

def countObjsFields (t : String) : List (String × JValue) → Nat
  | [] => 0
  | (_, v) :: fs => countObjs t v + countObjsFields t fs
end

/-- The length of a list-valued field of a fragment (`none` when the
field is missing or not a list). -/

def fieldLen (j : JValue) (k : String) : Option Nat :=
  match lookupField j k with
  | some (.jarr xs) => some xs.length
  | _ => none

/-- The children of element `k` carrying tag `tg`, in creation order. -/

def kidsWithTag (es : List XElem) (k : Nat) (tg : String) : List XElem :=
  es.filter (fun e => decide (e.parent = some k ∧ e.tag = tg))

/-- The `node`-tagged children of element `k`, in creation order. -/

def childNodes (es : List XElem) (k : Nat) : List XElem :=
  kidsWithTag es k "node"

/-- Whether the Graph-Form builder is supposed to suppress this owner
(an inherited property set or an injected property). -/

def suppressedOwner : MMOwner → Bool
  | .ofPS ps => ps.are_cim_properties
  | .ofProp p => p.was_injected
  | _ => false

/-- Whether an element was created for a suppressed node. -/

def suppressedSrc (e : XElem) : Bool :=
  match e.src with
  | some o => suppressedOwner o
  | none => false

/-! ## Tree-Form run characterization -/

/-- The properties contributed by one subprocess child. -/

def subItemProps : SubItem → List PropData
  | .psI ps => ps.properties
  | .propI p => [p]

/-- All properties carried by a subprocess's children, in traversal
order. -/

def subProps (items : List SubItem) : List PropData :=
  (items.map subItemProps).flatten

/-- The properties contributed by one topic child. -/

def itemProps : TopicItem → List PropData
  | .psT ps => ps.properties
  | .propT p => [p]
  | .subT s => subProps s.items

/-- All properties in a topic's subtree, in traversal order.  The Tree
Form gathers them all onto the topic fragment, via the property's
`root_topic` back-reference. -/

def topicProps (t : Topic) : List PropData :=
  (t.items.map itemProps).flatten

/-- All properties in the whole tree, in traversal order. -/

def treeProps (r : RootSpec) : List PropData :=
  (r.sub_topics.map topicProps).flatten

/-- The fields of a topic fragment before its `properties` list. -/

def topicPre (gl : String → String) (t : Topic) : List (String × JValue) :=
  [("id", .jstr t.id),
   ("label", .jstr (gl t.name)),
   ("description", jOfOpt t.description),
   ("contact", .jstr t.contact)]

/-- The topic fragment with its `properties` list filled in. -/

def topicFull (gl : String → String) (t : Topic) : JValue :=
  .jobj (topicPre gl t ++
    [("properties", .jarr ((topicProps t).map (propObj gl)))])

/-- The fields of the root fragment before its `subTopics` list. -/

def rootPre (gl : String → String) (r : RootSpec) : List (String × JValue) :=
  [("id", .jstr r.id),
   ("label", .jstr (gl r.name)),
   ("description", jOfOpt r.description),
   ("contact", .jstr r.contact),
   ("authors", .jarr ((pySplit ',' r.authors).map
      (fun i => .jstr (pyStrip i)))),
   ("contributors", .jarr ((pySplit ',' r.contributors).map
      (fun i => .jstr (pyStrip i)))),
   ("project", .jstr "cordex"),
   ("changeHistory", .jarr (r.change_history.map changeObj))]

/-- The final root fragment: `subTopics` filled with the full topic
fragments, in declaration order. -/

def rootFull (gl : String → String) (r : RootSpec) : JValue :=
  .jobj (rootPre gl r ++
    [("subTopics", .jarr (r.sub_topics.map (topicFull gl)))])

/-- Events with no Tree-Form handler leave the state unchanged. -/

def jsInert (ev : Event) : Prop :=
  ∀ (gl : String → String) (st : JSState), jsStep gl st ev = .ok st

/-- Well-formedness for the Tree Form: the root's and the topics' ids are
pairwise distinct (node identity is a usable cache key). -/

def WFjs (r : RootSpec) : Prop :=
  (r.id :: r.sub_topics.map (fun t => t.id)).Nodup

/-! ## Graph-Form run characterization -/

/-- The four change-history note fields, in emission order. -/

def chNotes (ch : ChangeEntry) : List (String × String) :=
  [("Version", ch.version), ("Date", ch.date),
   ("Person", ch.author), ("Comment", ch.note)]

/-- The elements the change-history loop creates: per entry one node
child (text = version) and its notes block. -/

def chChildElems (chKey : Nat) : Nat → List ChangeEntry → List XElem
  | _, [] => []
  | k, ch :: rest =>
    ⟨k, some chKey, "node", [("STYLE", "bubble"), ("TEXT", ch.version)],
      [], none⟩ ::
    ⟨k + 1, some k, "richcontent", [("TYPE", "NOTE")], chNotes ch, none⟩ ::
    chChildElems chKey (k + 2) rest

/-- The elements the legend loop creates: per section one coloured node
child and its description notes block. -/

def legendChildElems (legKey : Nat) : Nat → List String → List XElem
  | _, [] => []
  | k, s :: rest =>
    match cfgFind s with
    | none => []
    | some cfg =>
      ⟨k, some legKey, "node",
        [("BACKGROUND_COLOR", cfg.bgColor), ("COLOR", cfg.fontColor),
         ("STYLE", "bubble"), ("TEXT", s)], [], none⟩ ::
      ⟨k + 1, some k, "richcontent", [("TYPE", "NOTE")],
        [("Description", cfg.descr)], none⟩ ::
      legendChildElems legKey (k + 2) rest

/-- The whole change-history section: header node plus children. -/

def chSectionElems (k rk : Nat) (l : List ChangeEntry) : List XElem :=
  ⟨k, some rk, "node",
    [("FOLDED", "true"), ("STYLE", "bubble"),
     ("TEXT", "CHANGE HISTORY"), ("POSITION", "left")], [], none⟩ ::
  chChildElems k (k + 1) l

/-- The whole legend section: header node plus children. -/

def legSectionElems (k rk : Nat) : List XElem :=
  ⟨k, some rk, "node",
    [("FOLDED", "true"), ("STYLE", "bubble"),
     ("TEXT", "LEGEND"), ("POSITION", "left")], [], none⟩ ::
  legendChildElems k (k + 1) SECTIONS

/-- The three elements `_emit_node` creates for one owner. -/

def emitNodeElems (k pk : Nat) (o : MMOwner) (text : Option String)
    (style : String) (cfg : StyleCfg) : List XElem :=
  [⟨k, some pk, "node", nodeAttrsOf cfg style (text.getD o.oname) o.ourl,
     [], some o⟩,
   ⟨k + 1, some k, "font", fontAttrs cfg, [], some o⟩,
   ⟨k + 2, some k, "richcontent", [("TYPE", "NOTE")], getNotes o, some o⟩]

/-- How many notes blocks an emitted owner's node receives: two for a
process topic and for a property (whose handlers call `_emit_notes` a
second time after `_emit_node` already emitted one), one otherwise. -/

def noteBlocks : MMOwner → Nat
  | .ofTopic t => if t.kind = .process then 2 else 1
  | .ofProp _ => 2
  | _ => 1

/-- The font attributes the owner's kind requires. -/

def fontAttrsOf (o : MMOwner) : List (String × String) :=
  match cfgFind o.typeKey with
  | some cfg => fontAttrs cfg
  | none => []

/-- The node-cache keys an event's handler may insert (empty for
suppressed nodes). -/

def evIds : Event → List String
  | .rootParse r => [r.id]
  | .rootParsed _ => []
  | .topicParse t => [t.id]
  | .subprocessParse s _ => [s.id]
  | .propertySetParse ps _ => if ps.are_cim_properties then [] else [ps.id]
  | .propertyParse p _ _ => if p.was_injected then [] else [p.id]
  | .enumChoiceParse c _ => [c.id]

/-- Everything the root enter event creates: the `map` element, the
root's node / font / notes, the change-history section, the legend. -/

def rootBlock (k : Nat) (r : RootSpec) (cfg : StyleCfg) : List XElem :=
  ⟨k, none, "map", [], [], none⟩ ::
  (emitNodeElems (k + 1) k (.ofRoot r) none "fork" cfg ++
   chSectionElems (k + 4) (k + 1) r.change_history ++
   legSectionElems (k + 5 + 2 * r.change_history.length) (k + 1))

/-- The shape of the state change a successful Graph-Form event step
performs: elements only appended, fresh keys, parents cached-or-fresh,
decorations attached to same-event elements, cache entries fresh and
keyed by the event's owner, nothing created for suppressed owners, and
every node created for an owner decorated with exactly one font element
and its kind's number of notes blocks. -/

def StepShape (st st' : MMState) (ev : Event) (ext : List XElem) : Prop :=
  st'.elems = st.elems ++ ext ∧
  st.nextKey ≤ st'.nextKey ∧
  (∀ e ∈ ext, st.nextKey ≤ e.key ∧ e.key < st'.nextKey) ∧
  (∀ e ∈ ext, ∀ pk, e.parent = some pk →
    ((∃ i, getVal st.nodes i = some pk) ∨
     (st.nextKey ≤ pk ∧ pk < st'.nextKey))) ∧
  (∀ e ∈ ext, (e.tag = "font" ∨ e.tag = "richcontent") →
    ∃ pk, e.parent = some pk ∧ st.nextKey ≤ pk) ∧
  (∀ i k, getVal st'.nodes i = some k →
    getVal st.nodes i = some k ∨
    (i ∈ evIds ev ∧ st.nextKey ≤ k ∧ k < st'.nextKey)) ∧
  (∀ e ∈ ext, suppressedSrc e = false) ∧
  (∀ e ∈ ext, ∀ o, e.src = some o → e.tag = "node" →
    (kidsWithTag ext e.key "font").map (fun x => x.attrs) =
      [fontAttrsOf o] ∧
    (kidsWithTag ext e.key "richcontent").map (fun x => x.notes) =
      List.replicate (noteBlocks o) (getNotes o))

/-- Keys and parent pointers (elements and cache values) are below the
next fresh key. -/

def MMBound (st : MMState) : Prop :=
  (∀ e ∈ st.elems, e.key < st.nextKey ∧
    ∀ pk, e.parent = some pk → pk < st.nextKey) ∧
  (∀ i k, getVal st.nodes i = some k → k < st.nextKey)

/-- Every node element created for a model node carries exactly one font
child (with its kind's font attributes) and its kind's number of notes
blocks (all equal to the owner's notes). -/

def DecorOK (st : MMState) : Prop :=
  ∀ e ∈ st.elems, ∀ o, e.src = some o → e.tag = "node" →
    (kidsWithTag st.elems e.key "font").map (fun x => x.attrs) =
      [fontAttrsOf o] ∧
    (kidsWithTag st.elems e.key "richcontent").map (fun x => x.notes) =
      List.replicate (noteBlocks o) (getNotes o)

/-- No element was created for a suppressed node. -/

def NoSuppressed (st : MMState) : Prop :=
  ∀ e ∈ st.elems, suppressedSrc e = false

/-- The node-cache keys any event of the run may insert.  A suppressed
node (injected property, inherited property set) contributes nothing. -/

def emittableIds (r : RootSpec) : List String :=
  ((rootEvents r).map evIds).flatten

/-- The expected child nodes of the change-history section. -/

def chKidSpec (chKey : Nat) : Nat → List ChangeEntry → List XElem
  | _, [] => []
  | k, ch :: rest =>
    ⟨k, some chKey, "node", [("STYLE", "bubble"), ("TEXT", ch.version)],
      [], none⟩ :: chKidSpec chKey (k + 2) rest

/-- The expected child nodes of the legend section. -/

def legKidSpec (legKey : Nat) : Nat → List String → List XElem
  | _, [] => []
  | k, s :: rest =>
    match cfgFind s with
    | none => []
    | some cfg =>
      ⟨k, some legKey, "node",
        [("BACKGROUND_COLOR", cfg.bgColor), ("COLOR", cfg.fontColor),
         ("STYLE", "bubble"), ("TEXT", s)], [], none⟩ ::
      legKidSpec legKey (k + 2) rest

/-- The state of a successful Graph-Form run. -/

def mmStOf (r : RootSpec) : MMState :=
  match mmRun r with
  | .ok st => st
  | .error _ => ⟨[], 0, []⟩

/-- The Tree-Form root fragment of a run (null if the run failed or the
root fragment is missing). -/

def jsFragOf (gl : String → String) (r : RootSpec) : JValue :=
  match jsFinalFrag gl r with
  | some f => f
  | none => .jnull

/-- The number of Property nodes that are direct children of a topic
(not nested under a subprocess or property set). -/

def directPropCount (t : Topic) : Nat :=
  (t.items.filter (fun it =>
    match it with
    | .propT _ => true
    | _ => false)).length

/-! ## Concrete example trees used by witnesses and counterexamples -/

def glId : String → String := fun s => s

def exC1Prop : PropData :=
  ⟨"r.t.s.p", "p", none, "1.1", "str", false, none, none⟩

def exC1Sub : SubData := ⟨"r.t.s", "s", none, [.propI exC1Prop], none⟩

def exC1Topic : Topic := ⟨.process, "r.t", "t", none, "", [.subT exC1Sub], none⟩

def exC1Root : RootSpec :=
  ⟨"r", "realm", "r", none, "", "a", "", [], [exC1Topic], none⟩

def exC2Prop : PropData := ⟨"r.t.p", "p", none, "1.1", "str", true, none, none⟩

def exC3Choice : ChoiceData := ⟨"r.g.p2.c", "v", none, none⟩

def exC3Enum : EnumData := ⟨"en", none, false, [exC3Choice]⟩

def exC3Prop : PropData :=
  ⟨"r.g.p2", "p2", none, "1.1", "str", true, some exC3Enum, none⟩

def exC3Topic : Topic := ⟨.grid, "r.g", "g", none, "", [.propT exC3Prop], none⟩

def exC3Root : RootSpec :=
  ⟨"r", "realm", "r", none, "", "a", "", [], [exC3Topic], none⟩

def exC4Choice : ChoiceData := ⟨"r.t.p.c1", "val1", some "d1", none⟩

def exC4Enum : EnumData := ⟨"en", some "an enum", true, [exC4Choice]⟩

def exC4Prop : PropData :=
  ⟨"r.t.p", "p", none, "1.N", "str", false, some exC4Enum, none⟩

def exC5Root : RootSpec := ⟨"r", "realm", "r", none, "", "a", "b", [], [], none⟩

def exC6Topic : Topic := ⟨.process, "r.t", "t", none, "", [], none⟩

def exC6Root : RootSpec :=
  ⟨"r", "realm", "r", none, "", "a", "", [], [exC6Topic], none⟩

def exC7Root : RootSpec :=
  ⟨"r", "realm", "r", none, "", "a", "",
   [⟨"1.0", "2020", "me", "x"⟩, ⟨"1.1", "2021", "you", "y"⟩], [], none⟩

def exC8Root : RootSpec :=
  ⟨"r8", "realm", "r8", none, "", "a", "", [⟨"2.0", "2022", "z", "w"⟩],
   [], none⟩

def exC9Root : RootSpec :=
  ⟨"r9", "realm", "r9", none, "c", "a", "b", [], [], none⟩

def exC10Owner : MMOwner :=
  .ofTopic ⟨.grid, "r.g", "g", none, "", [], some "http://example.org"⟩

def exC10OwnerNoUrl : MMOwner :=
  .ofTopic ⟨.grid, "r.g2", "g2", none, "", [], none⟩

/-! ## Association-list lemmas -/

theorem getVal_setVal_self {α : Type} (l : List (String × α)) (k : String)
    (v : α) : getVal (setVal l k v) k = some v := by
  induction l with
  | nil => simp [getVal, setVal]
  | cons hd t ih =>
    obtain ⟨k', v'⟩ := hd
    by_cases hk : k' = k
    · subst hk; simp [getVal, setVal]
    · simp [getVal, setVal, hk, ih]

theorem getVal_setVal_of_ne {α : Type} (l : List (String × α)) (k j : String)
    (v : α) (h : j ≠ k) : getVal (setVal l k v) j = getVal l j := by
  induction l with
  | nil => simp [getVal, setVal, Ne.symm h]
  | cons hd t ih =>
    obtain ⟨k', v'⟩ := hd
    by_cases hk : k' = k
    · subst hk
      simp [getVal, setVal, Ne.symm h]
    · by_cases hj : k' = j
      · subst hj; simp [getVal, setVal, hk]
      · simp [getVal, setVal, hk, hj, ih]

theorem setVal_setVal_self {α : Type} (l : List (String × α)) (k : String)
    (a b : α) : setVal (setVal l k a) k b = setVal l k b := by
  induction l with
  | nil => simp [setVal]
  | cons hd t ih =>
    obtain ⟨k', v'⟩ := hd
    by_cases hk : k' = k
    · subst hk; simp [setVal]
    · simp [setVal, hk, ih]

theorem setVal_of_getVal_none {α : Type} (l : List (String × α)) (k : String)
    (v : α) (h : getVal l k = none) : setVal l k v = l ++ [(k, v)] := by
  induction l with
  | nil => simp [setVal]
  | cons hd t ih =>
    obtain ⟨k', v'⟩ := hd
    by_cases hk : k' = k
    · subst hk; simp [getVal] at h
    · simp [getVal, hk] at h
      simp [setVal, hk, ih h]

theorem getVal_append_of_some {α : Type} (l1 l2 : List (String × α))
    (k : String) (v : α) (h : getVal l1 k = some v) :
    getVal (l1 ++ l2) k = some v := by
  induction l1 with
  | nil => simp [getVal] at h
  | cons hd t ih =>
    obtain ⟨k', v'⟩ := hd
    by_cases hk : k' = k
    · subst hk
      simp [getVal] at h ⊢
      exact h
    · simp [getVal, hk] at h ⊢
      exact ih h

theorem getVal_append_of_none {α : Type} (l1 l2 : List (String × α))
    (k : String) (h : getVal l1 k = none) :
    getVal (l1 ++ l2) k = getVal l2 k := by
  induction l1 with
  | nil => simp [getVal]
  | cons hd t ih =>
    obtain ⟨k', v'⟩ := hd
    by_cases hk : k' = k
    · subst hk; simp [getVal] at h
    · simp [getVal, hk] at h ⊢
      exact ih h

/-! ## Event-runner lemmas -/

theorem exRun_append {σ α : Type} (f : σ → α → Except String σ)
    (l1 l2 : List α) (st : σ) :
    exRun f st (l1 ++ l2) =
      match exRun f st l1 with
      | .ok st1 => exRun f st1 l2
      | .error e => .error e := by
  induction l1 generalizing st with
  | nil => simp [exRun]
  | cons x xs ih =>
    simp only [List.cons_append, exRun]
    cases f st x with
    | ok st' => simp [ih]
    | error e => simp

theorem topicObj_decomp (gl : String → String) (t : Topic) :
    topicObj gl t = .jobj (topicPre gl t ++ [("properties", .jarr [])]) :=
  rfl

theorem rootObj_decomp (gl : String → String) (r : RootSpec) :
    rootObj gl r = .jobj (rootPre gl r ++ [("subTopics", .jarr [])]) :=
  rfl

theorem setVal_append_last {α : Type} (pre : List (String × α)) (k : String)
    (w v : α) (h : getVal pre k = none) :
    setVal (pre ++ [(k, w)]) k v = pre ++ [(k, v)] := by
  induction pre with
  | nil => simp [setVal]
  | cons hd t ih =>
    obtain ⟨k', v'⟩ := hd
    by_cases hk : k' = k
    · subst hk; simp [getVal] at h
    · simp [getVal, hk] at h
      simp [setVal, hk, ih h]

/-- Appending to the trailing list field of a fragment. -/

theorem appendToField_last (pre : List (String × JValue)) (k : String)
    (ps : List JValue) (v : JValue) (h : getVal pre k = none) :
    appendToField (.jobj (pre ++ [(k, .jarr ps)])) k v =
      .ok (.jobj (pre ++ [(k, .jarr (ps ++ [v]))])) := by
  have h1 : getVal (pre ++ [(k, JValue.jarr ps)]) k = some (.jarr ps) := by
    rw [getVal_append_of_none _ _ _ h]; simp [getVal]
  simp [appendToField, h1, setVal_append_last pre k _ _ h]

/-- Repeated appending to the trailing list field of a fragment. -/

theorem exRun_appendField (k : String) (pre : List (String × JValue))
    (h : getVal pre k = none) :
    ∀ (frags ps : List JValue),
      exRun (fun acc frag => appendToField acc k frag)
        (.jobj (pre ++ [(k, .jarr ps)])) frags =
      .ok (.jobj (pre ++ [(k, .jarr (ps ++ frags))])) := by
  intro frags
  induction frags with
  | nil => intro ps; simp [exRun]
  | cons f rest ih =>
    intro ps
    simp only [exRun, appendToField_last pre k ps f h]
    rw [ih (ps ++ [f])]
    simp

theorem jsInert_sub (s : SubData) (pid : String) :
    jsInert (.subprocessParse s pid) := fun _ _ => rfl

theorem jsInert_ps (ps : PSData) (oid : String) :
    jsInert (.propertySetParse ps oid) := fun _ _ => rfl

theorem jsInert_choice (c : ChoiceData) (did : String) :
    jsInert (.enumChoiceParse c did) := fun _ _ => rfl

theorem exRun_jsInert (gl : String → String) (evs : List Event)
    (h : ∀ ev ∈ evs, jsInert ev) (st : JSState) :
    exRun (jsStep gl) st evs = .ok st := by
  induction evs with
  | nil => rfl
  | cons ev rest ih =>
    have h1 := h ev (by simp)
    simp only [exRun, h1 gl st]
    exact ih (fun e he => h e (by simp [he]))

/-- Processing one property's events appends its fragment to the root
topic's `properties` list and touches nothing else. -/

theorem jsRun_propEvents (gl : String → String) (owner tid : String)
    (p : PropData) (M : List (String × JValue)) (pre : List (String × JValue))
    (ps : List JValue)
    (h : getVal M tid = some (.jobj (pre ++ [("properties", .jarr ps)])))
    (hpre : getVal pre "properties" = none) :
    exRun (jsStep gl) ⟨M⟩ (propEvents owner tid p) =
      .ok ⟨setVal M tid
        (.jobj (pre ++ [("properties", .jarr (ps ++ [propObj gl p]))]))⟩ := by
  have hstep : jsStep gl ⟨M⟩ (.propertyParse p owner tid) =
      .ok ⟨setVal M tid
        (.jobj (pre ++ [("properties", .jarr (ps ++ [propObj gl p]))]))⟩ := by
    simp [jsStep, h, appendToField_last pre "properties" ps (propObj gl p) hpre,
      Bind.bind, Except.bind]
  simp only [propEvents, exRun, hstep]
  exact exRun_jsInert gl _
    (by
      intro ev hev
      match hp : p.enum with
      | some e =>
        rw [hp] at hev
        simp at hev
        obtain ⟨c, _, hc⟩ := hev
        subst hc
        exact jsInert_choice c p.id
      | none =>
        rw [hp] at hev
        simp at hev) _

theorem setVal_eq_of_getVal {α : Type} (l : List (String × α)) (k : String)
    (v : α) (h : getVal l k = some v) : setVal l k v = l := by
  induction l with
  | nil => simp [getVal] at h
  | cons hd t ih =>
    obtain ⟨k', v'⟩ := hd
    by_cases hk : k' = k
    · subst hk
      simp [getVal] at h
      simp [setVal, h]
    · simp [getVal, hk] at h
      simp [setVal, hk, ih h]

theorem exRun_append_ok {σ α : Type} (f : σ → α → Except String σ)
    (l1 l2 : List α) (st st1 : σ) (h : exRun f st l1 = .ok st1) :
    exRun f st (l1 ++ l2) = exRun f st1 l2 := by
  rw [exRun_append, h]

theorem exRun_cons_ok {σ α : Type} (f : σ → α → Except String σ)
    (x : α) (xs : List α) (st st1 : σ) (h : f st x = .ok st1) :
    exRun f st (x :: xs) = exRun f st1 xs := by
  simp [exRun, h]

/-- Processing a list of properties' events appends their fragments, in
order, to the root topic's `properties` list. -/

theorem jsRun_propsList (gl : String → String) (owner tid : String) :
    ∀ (props : List PropData) (M pre : List (String × JValue))
      (ps : List JValue),
      getVal M tid = some (.jobj (pre ++ [("properties", .jarr ps)])) →
      getVal pre "properties" = none →
      exRun (jsStep gl) ⟨M⟩ ((props.map (propEvents owner tid)).flatten) =
        .ok ⟨setVal M tid
          (.jobj (pre ++
            [("properties", .jarr (ps ++ props.map (propObj gl)))]))⟩ := by
  intro props
  induction props with
  | nil =>
    intro M pre ps h hpre
    simp only [List.map_nil, List.flatten_nil, exRun, List.append_nil]
    rw [setVal_eq_of_getVal M tid _ h]
  | cons p rest ih =>
    intro M pre ps h hpre
    simp only [List.map_cons, List.flatten_cons]
    rw [exRun_append_ok _ _ _ _ _
      (jsRun_propEvents gl owner tid p M pre ps h hpre)]
    rw [ih (setVal M tid _) pre (ps ++ [propObj gl p])
      (getVal_setVal_self _ _ _) hpre]
    rw [setVal_setVal_self]
    simp

/-- Processing one subprocess child's events appends its properties'
fragments to the root topic's `properties` list. -/

theorem jsRun_subItem (gl : String → String) (tid sid : String)
    (it : SubItem) (M pre : List (String × JValue)) (ps : List JValue)
    (h : getVal M tid = some (.jobj (pre ++ [("properties", .jarr ps)])))
    (hpre : getVal pre "properties" = none) :
    exRun (jsStep gl) ⟨M⟩ (subItemEvents sid tid it) =
      .ok ⟨setVal M tid
        (.jobj (pre ++
          [("properties",
            .jarr (ps ++ (subItemProps it).map (propObj gl)))]))⟩ := by
  cases it with
  | psI ps' =>
    simp only [subItemEvents, exRun, subItemProps]
    have hinert : jsStep gl ⟨M⟩ (.propertySetParse ps' sid) = .ok ⟨M⟩ := rfl
    rw [hinert]
    exact jsRun_propsList gl ps'.id tid ps'.properties M pre ps h hpre
  | propI p =>
    simp only [subItemEvents, subItemProps]
    have := jsRun_propEvents gl sid tid p M pre ps h hpre
    rw [this]
    simp

/-- Processing a subprocess's children. -/

theorem jsRun_subItems (gl : String → String) (tid sid : String) :
    ∀ (items : List SubItem) (M pre : List (String × JValue))
      (ps : List JValue),
      getVal M tid = some (.jobj (pre ++ [("properties", .jarr ps)])) →
      getVal pre "properties" = none →
      exRun (jsStep gl) ⟨M⟩ ((items.map (subItemEvents sid tid)).flatten) =
        .ok ⟨setVal M tid
          (.jobj (pre ++
            [("properties",
              .jarr (ps ++ (subProps items).map (propObj gl)))]))⟩ := by
  intro items
  induction items with
  | nil =>
    intro M pre ps h hpre
    simp only [List.map_nil, List.flatten_nil, exRun, subProps,
      List.append_nil]
    rw [setVal_eq_of_getVal M tid _ h]
  | cons it rest ih =>
    intro M pre ps h hpre
    simp only [List.map_cons, List.flatten_cons]
    rw [exRun_append_ok _ _ _ _ _
      (jsRun_subItem gl tid sid it M pre ps h hpre)]
    rw [ih (setVal M tid _) pre (ps ++ (subItemProps it).map (propObj gl))
      (getVal_setVal_self _ _ _) hpre]
    rw [setVal_setVal_self]
    simp [subProps]

/-- Processing one topic child's events appends its subtree's property
fragments to the topic's `properties` list. -/

theorem jsRun_topicItem (gl : String → String) (tid : String)
    (it : TopicItem) (M pre : List (String × JValue)) (ps : List JValue)
    (h : getVal M tid = some (.jobj (pre ++ [("properties", .jarr ps)])))
    (hpre : getVal pre "properties" = none) :
    exRun (jsStep gl) ⟨M⟩ (topicItemEvents tid it) =
      .ok ⟨setVal M tid
        (.jobj (pre ++
          [("properties",
            .jarr (ps ++ (itemProps it).map (propObj gl)))]))⟩ := by
  cases it with
  | psT ps' =>
    simp only [topicItemEvents, exRun, itemProps]
    have hinert : jsStep gl ⟨M⟩ (.propertySetParse ps' tid) = .ok ⟨M⟩ := rfl
    rw [hinert]
    exact jsRun_propsList gl ps'.id tid ps'.properties M pre ps h hpre
  | propT p =>
    simp only [topicItemEvents, itemProps]
    rw [jsRun_propEvents gl tid tid p M pre ps h hpre]
    simp
  | subT s =>
    simp only [topicItemEvents, exRun, itemProps]
    have hinert : jsStep gl ⟨M⟩ (.subprocessParse s tid) = .ok ⟨M⟩ := rfl
    rw [hinert]
    exact jsRun_subItems gl tid s.id s.items M pre ps h hpre

/-- Processing all of a topic's children. -/

theorem jsRun_topicItems (gl : String → String) (tid : String) :
    ∀ (items : List TopicItem) (M pre : List (String × JValue))
      (ps : List JValue),
      getVal M tid = some (.jobj (pre ++ [("properties", .jarr ps)])) →
      getVal pre "properties" = none →
      exRun (jsStep gl) ⟨M⟩ ((items.map (topicItemEvents tid)).flatten) =
        .ok ⟨setVal M tid
          (.jobj (pre ++
            [("properties",
              .jarr (ps ++
                ((items.map itemProps).flatten).map (propObj gl)))]))⟩ := by
  intro items
  induction items with
  | nil =>
    intro M pre ps h hpre
    simp only [List.map_nil, List.flatten_nil, exRun, List.append_nil]
    rw [setVal_eq_of_getVal M tid _ h]
  | cons it rest ih =>
    intro M pre ps h hpre
    simp only [List.map_cons, List.flatten_cons]
    rw [exRun_append_ok _ _ _ _ _
      (jsRun_topicItem gl tid it M pre ps h hpre)]
    rw [ih (setVal M tid _) pre (ps ++ (itemProps it).map (propObj gl))
      (getVal_setVal_self _ _ _) hpre]
    rw [setVal_setVal_self]
    simp

/-- Processing one whole topic subtree sets the topic's full fragment in
the cache (and touches no other entry). -/

theorem jsRun_topic (gl : String → String) (t : Topic)
    (M : List (String × JValue)) :
    exRun (jsStep gl) ⟨M⟩ (topicEvents t) =
      .ok ⟨setVal M t.id (topicFull gl t)⟩ := by
  simp only [topicEvents]
  have hstep : jsStep gl ⟨M⟩ (.topicParse t) =
      .ok ⟨setVal M t.id
        (.jobj (topicPre gl t ++ [("properties", .jarr [])]))⟩ := rfl
  rw [exRun_cons_ok _ _ _ _ _ hstep]
  have h := jsRun_topicItems gl t.id t.items (setVal M t.id
      (.jobj (topicPre gl t ++ [("properties", .jarr [])])))
    (topicPre gl t) [] (getVal_setVal_self _ _ _) rfl
  rw [h, setVal_setVal_self]
  simp [topicFull, topicProps]

/-- Processing a list of topic subtrees. -/

theorem jsRun_topics (gl : String → String) :
    ∀ (ts : List Topic) (M : List (String × JValue)),
      exRun (jsStep gl) ⟨M⟩ ((ts.map topicEvents).flatten) =
        .ok ⟨ts.foldl (fun acc t => setVal acc t.id (topicFull gl t)) M⟩ := by
  intro ts
  induction ts with
  | nil => intro M; simp [exRun]
  | cons t rest ih =>
    intro M
    simp only [List.map_cons, List.flatten_cons, List.foldl_cons]
    rw [exRun_append_ok _ _ _ _ _ (jsRun_topic gl t M)]
    exact ih _

/-- Setting fresh keys one after another appends the bindings in order. -/

theorem foldl_setVal_fresh (gl : String → String) :
    ∀ (ts : List Topic) (M : List (String × JValue)),
      (∀ t ∈ ts, getVal M t.id = none) →
      (ts.map (fun t => t.id)).Nodup →
      ts.foldl (fun acc t => setVal acc t.id (topicFull gl t)) M =
        M ++ ts.map (fun t => (t.id, topicFull gl t)) := by
  intro ts
  induction ts with
  | nil => intro M _ _; simp
  | cons t rest ih =>
    intro M hM hnd
    simp only [List.foldl_cons, List.map_cons]
    rw [setVal_of_getVal_none _ _ _ (hM t (by simp))]
    rw [ih (M ++ [(t.id, topicFull gl t)])
      (by
        intro t' ht'
        have hne : t'.id ≠ t.id := by
          have h1 := (List.nodup_cons.mp hnd).1
          intro hcontra
          apply h1
          show t.id ∈ List.map (fun t => t.id) rest
          rw [← hcontra]
          exact List.mem_map_of_mem (fun t => t.id) ht'
        rw [getVal_append_of_none _ _ _ (hM t' (by simp [ht']))]
        simp [getVal, Ne.symm hne])
      ((List.nodup_cons.mp hnd).2)]
    simp

/-- Looking up a topic's binding among the freshly appended pairs. -/

theorem getVal_topicPairs (gl : String → String) :
    ∀ (ts : List Topic) (t : Topic), t ∈ ts →
      (ts.map (fun t => t.id)).Nodup →
      getVal (ts.map (fun t => (t.id, topicFull gl t))) t.id =
        some (topicFull gl t) := by
  intro ts
  induction ts with
  | nil => intro t ht; simp at ht
  | cons t' rest ih =>
    intro t ht hnd
    rcases List.mem_cons.mp ht with heq | hmem
    · subst heq
      simp [getVal]
    · have hne : t'.id ≠ t.id := by
        have h1 := (List.nodup_cons.mp hnd).1
        intro hcontra
        apply h1
        show t'.id ∈ List.map (fun t => t.id) rest
        rw [hcontra]
        exact List.mem_map_of_mem (fun t => t.id) hmem
      simp only [List.map_cons, getVal, hne, if_false]
      exact ih t hmem (List.nodup_cons.mp hnd).2

/-- Fetching fragments succeeds when every topic's fragment is cached. -/

theorem fetchFrags_all (gl : String → String)
    (maps : List (String × JValue)) :
    ∀ (ts : List Topic),
      (∀ t ∈ ts, getVal maps t.id = some (topicFull gl t)) →
      fetchFrags maps ts = .ok (ts.map (topicFull gl)) := by
  intro ts
  induction ts with
  | nil => intro _; rfl
  | cons t rest ih =>
    intro hall
    simp only [fetchFrags, hall t (by simp), List.map_cons]
    rw [ih (fun t' ht' => hall t' (by simp [ht']))]

/-- Characterization of a whole Tree-Form run on a well-formed tree: the
final cache binds the root id to the full root fragment and each topic
id to its full topic fragment. -/

theorem jsRun_eq (gl : String → String) (r : RootSpec) (h : WFjs r) :
    jsRun gl r =
      .ok ⟨(r.id, rootFull gl r) ::
        r.sub_topics.map (fun t => (t.id, topicFull gl t))⟩ := by
  obtain ⟨hrid, hnd⟩ := List.nodup_cons.mp h
  have hstep1 : jsStep gl ⟨[]⟩ (.rootParse r) =
      .ok ⟨[(r.id, rootObj gl r)]⟩ := rfl
  unfold jsRun rootEvents
  rw [exRun_cons_ok _ _ _ _ _ hstep1]
  rw [exRun_append_ok _ _ _ _ _ (jsRun_topics gl r.sub_topics _)]
  rw [foldl_setVal_fresh gl r.sub_topics [(r.id, rootObj gl r)]
    (by
      intro t ht
      have hne : t.id ≠ r.id := by
        intro hcontra
        apply hrid
        rw [← hcontra]
        exact List.mem_map_of_mem (fun t => t.id) ht
      simp [getVal, Ne.symm hne])
    hnd]
  set maps := (r.id, rootObj gl r) ::
    r.sub_topics.map (fun t => (t.id, topicFull gl t)) with hmaps
  have hfetch : fetchFrags maps r.sub_topics =
      .ok (r.sub_topics.map (topicFull gl)) := by
    apply fetchFrags_all
    intro t ht
    have hne : r.id ≠ t.id := by
      intro hcontra
      apply hrid
      rw [hcontra]
      exact List.mem_map_of_mem (fun t => t.id) ht
    rw [hmaps]
    simp only [getVal, hne, if_false]
    exact getVal_topicPairs gl r.sub_topics t ht hnd
  have hroot : getVal maps r.id = some (rootObj gl r) := by
    rw [hmaps]; simp [getVal]
  have happend : exRun (fun acc frag => appendToField acc "subTopics" frag)
      (rootObj gl r) (r.sub_topics.map (topicFull gl)) =
      .ok (rootFull gl r) := by
    rw [rootObj_decomp]
    rw [exRun_appendField "subTopics" (rootPre gl r) rfl
      (r.sub_topics.map (topicFull gl)) []]
    simp [rootFull]
  have hstep2 : jsStep gl ⟨maps⟩ (.rootParsed r) =
      .ok ⟨(r.id, rootFull gl r) ::
        r.sub_topics.map (fun t => (t.id, topicFull gl t))⟩ := by
    simp only [jsStep, hfetch, hroot, happend, Bind.bind, Except.bind]
    rw [hmaps]
    simp [setVal]
  rw [List.singleton_append, exRun_cons_ok _ _ _ _ _ hstep2]
  rfl

theorem chFold_eq (chKey : Nat) :
    ∀ (l : List ChangeEntry) (acc : MMState),
      l.foldl (chBody chKey) acc =
        ⟨acc.elems ++ chChildElems chKey acc.nextKey l,
         acc.nextKey + 2 * l.length, acc.nodes⟩ := by
  intro l
  induction l with
  | nil => intro acc; simp [chChildElems]
  | cons ch rest ih =>
    intro acc
    simp only [List.foldl_cons]
    rw [show chBody chKey acc ch =
      ⟨acc.elems ++
        [⟨acc.nextKey, some chKey, "node",
          [("STYLE", "bubble"), ("TEXT", ch.version)], [], none⟩,
         ⟨acc.nextKey + 1, some acc.nextKey, "richcontent",
          [("TYPE", "NOTE")], chNotes ch, none⟩],
       acc.nextKey + 2, acc.nodes⟩ from by
        simp [chBody, addPlainNode, emitNotesAt, chNotes]]
    rw [ih]
    simp only [chChildElems]
    congr 1
    · simp
    · simp only [List.length_cons]
      omega

theorem legFold_eq (legKey : Nat) :
    ∀ (secs : List String), (∀ s ∈ secs, (cfgFind s).isSome) →
      ∀ (acc : MMState),
        exRun (legBody legKey) acc secs =
          .ok ⟨acc.elems ++ legendChildElems legKey acc.nextKey secs,
               acc.nextKey + 2 * secs.length, acc.nodes⟩ := by
  intro secs
  induction secs with
  | nil => intro _ acc; simp [exRun, legendChildElems]
  | cons s rest ih =>
    intro hall acc
    have hs := hall s (by simp)
    obtain ⟨cfg, hcfg⟩ := Option.isSome_iff_exists.mp hs
    have hstep : legBody legKey acc s =
        .ok ⟨acc.elems ++
          [⟨acc.nextKey, some legKey, "node",
            [("BACKGROUND_COLOR", cfg.bgColor), ("COLOR", cfg.fontColor),
             ("STYLE", "bubble"), ("TEXT", s)], [], none⟩,
           ⟨acc.nextKey + 1, some acc.nextKey, "richcontent",
            [("TYPE", "NOTE")], [("Description", cfg.descr)], none⟩],
         acc.nextKey + 2, acc.nodes⟩ := by
      simp [legBody, hcfg, addPlainNode, emitNotesAt]
    rw [exRun_cons_ok _ _ _ _ _ hstep]
    rw [ih (fun s' hs' => hall s' (by simp [hs'])) _]
    simp only [legendChildElems, hcfg]
    congr 2
    · simp
    · simp only [List.length_cons]
      omega

theorem SECTIONS_cfg_isSome : ∀ s ∈ SECTIONS, (cfgFind s).isSome := by
  decide

theorem emitChangeHistory_eq (st : MMState) (r : RootSpec) (rk : Nat)
    (h : getVal st.nodes r.id = some rk) :
    emitChangeHistory st r =
      .ok ⟨st.elems ++ chSectionElems st.nextKey rk r.change_history,
           st.nextKey + 1 + 2 * r.change_history.length, st.nodes⟩ := by
  simp only [emitChangeHistory, h, addPlainNode]
  rw [chFold_eq]
  simp [chSectionElems]

theorem emitLegend_eq (st : MMState) (r : RootSpec) (rk : Nat)
    (h : getVal st.nodes r.id = some rk) :
    emitLegend st r =
      .ok ⟨st.elems ++ legSectionElems st.nextKey rk,
           st.nextKey + 17, st.nodes⟩ := by
  simp only [emitLegend, h, addPlainNode]
  rw [legFold_eq _ _ SECTIONS_cfg_isSome]
  simp [legSectionElems, SECTIONS]

theorem emitNode_eq (st : MMState) (pr : ParentRef) (o : MMOwner)
    (text : Option String) (style : String) (cfg : StyleCfg) (pk : Nat)
    (hcfg : cfgFind o.typeKey = some cfg)
    (hpk : resolveParent st pr = .ok pk) :
    emitNode st pr o text style =
      .ok ⟨st.elems ++ emitNodeElems st.nextKey pk o text style cfg,
           st.nextKey + 3, setVal st.nodes o.oid st.nextKey⟩ := by
  simp [emitNode, hcfg, hpk, emitNodeElems, Bind.bind, Except.bind]

theorem emitNotesOwner_eq (st : MMState) (o : MMOwner) (pk : Nat)
    (h : getVal st.nodes o.oid = some pk) :
    emitNotesOwner st o =
      .ok ⟨st.elems ++
        [⟨st.nextKey, some pk, "richcontent", [("TYPE", "NOTE")],
          getNotes o, some o⟩],
        st.nextKey + 1, st.nodes⟩ := by
  simp [emitNotesOwner, h]

theorem mmStep_root_eq (rid : String) (st : MMState) (r : RootSpec)
    (cfg : StyleCfg) (hcfg : cfgFind r.type_key = some cfg) :
    mmStep rid st (.rootParse r) =
      .ok ⟨st.elems ++ rootBlock st.nextKey r cfg,
           st.nextKey + 22 + 2 * r.change_history.length,
           setVal st.nodes r.id (st.nextKey + 1)⟩ := by
  have hcfg' : cfgFind (MMOwner.ofRoot r).typeKey = some cfg := hcfg
  have h1 := emitNode_eq
    ⟨st.elems ++ [⟨st.nextKey, none, "map", [], [], none⟩],
     st.nextKey + 1, st.nodes⟩
    (.elemKey st.nextKey) (.ofRoot r) none "fork" cfg st.nextKey hcfg' rfl
  have h2 := emitChangeHistory_eq
    ⟨(st.elems ++ [⟨st.nextKey, none, "map", [], [], none⟩]) ++
      emitNodeElems (st.nextKey + 1) st.nextKey (.ofRoot r) none "fork" cfg,
     st.nextKey + 4, setVal st.nodes (MMOwner.ofRoot r).oid (st.nextKey + 1)⟩
    r (st.nextKey + 1) (getVal_setVal_self _ _ _)
  have h3 := emitLegend_eq
    ⟨((st.elems ++ [⟨st.nextKey, none, "map", [], [], none⟩]) ++
      emitNodeElems (st.nextKey + 1) st.nextKey (.ofRoot r) none "fork" cfg) ++
      chSectionElems (st.nextKey + 4) (st.nextKey + 1) r.change_history,
     st.nextKey + 4 + 1 + 2 * r.change_history.length,
     setVal st.nodes (MMOwner.ofRoot r).oid (st.nextKey + 1)⟩
    r (st.nextKey + 1) (getVal_setVal_self _ _ _)
  simp only [mmStep, h1, h2, h3, Bind.bind, Except.bind]
  simp only [rootBlock, Except.ok.injEq, MMState.mk.injEq]
  refine ⟨by simp, by omega, rfl⟩

theorem kidsWithTag_append (es1 es2 : List XElem) (k : Nat) (tg : String) :
    kidsWithTag (es1 ++ es2) k tg =
      kidsWithTag es1 k tg ++ kidsWithTag es2 k tg := by
  simp [kidsWithTag, List.filter_append]

theorem kidsWithTag_nil_of (es : List XElem) (k : Nat) (tg : String)
    (h : ∀ e ∈ es, ¬(e.parent = some k ∧ e.tag = tg)) :
    kidsWithTag es k tg = [] := by
  simp only [kidsWithTag, List.filter_eq_nil_iff]
  intro e he
  simp only [decide_eq_true_eq]
  exact h e he

/-- Inversion of `resolveParent`. -/

theorem resolveParent_inv (st : MMState) (pr : ParentRef) (pk : Nat)
    (h : resolveParent st pr = .ok pk) :
    pr = .elemKey pk ∨ ∃ i, getVal st.nodes i = some pk := by
  cases pr with
  | elemKey k =>
    left
    simp [resolveParent] at h
    rw [h]
  | nodeRef i =>
    right
    refine ⟨i, ?_⟩
    match hg : getVal st.nodes i with
    | some k =>
      simp [resolveParent, hg] at h
      rw [h]
    | none => simp [resolveParent, hg] at h

/-- Inversion of `_emit_node`. -/

theorem emitNode_inv (st : MMState) (pr : ParentRef) (o : MMOwner)
    (text : Option String) (style : String) (st' : MMState)
    (h : emitNode st pr o text style = .ok st') :
    ∃ cfg pk, cfgFind o.typeKey = some cfg ∧
      resolveParent st pr = .ok pk ∧
      st' = ⟨st.elems ++ emitNodeElems st.nextKey pk o text style cfg,
             st.nextKey + 3, setVal st.nodes o.oid st.nextKey⟩ := by
  match hc : cfgFind o.typeKey with
  | none => simp [emitNode, hc, Bind.bind, Except.bind] at h
  | some cfg =>
    match hp : resolveParent st pr with
    | .error e => simp [emitNode, hc, hp, Bind.bind, Except.bind] at h
    | .ok pk =>
      rw [emitNode_eq st pr o text style cfg pk hc hp] at h
      exact ⟨cfg, pk, rfl, rfl, (Except.ok.inj h).symm⟩

/-- Inversion of the owner form of `_emit_notes`. -/

theorem emitNotesOwner_inv (st : MMState) (o : MMOwner) (st' : MMState)
    (h : emitNotesOwner st o = .ok st') :
    ∃ pk, getVal st.nodes o.oid = some pk ∧
      st' = ⟨st.elems ++
        [⟨st.nextKey, some pk, "richcontent", [("TYPE", "NOTE")],
          getNotes o, some o⟩],
        st.nextKey + 1, st.nodes⟩ := by
  match hg : getVal st.nodes o.oid with
  | none => simp [emitNotesOwner, hg] at h
  | some pk =>
    rw [emitNotesOwner_eq st o pk hg] at h
    exact ⟨pk, rfl, (Except.ok.inj h).symm⟩

theorem getVal_setVal_inv {α : Type} (l : List (String × α)) (k j : String)
    (v w : α) (h : getVal (setVal l k v) j = some w) :
    (j = k ∧ w = v) ∨ getVal l j = some w := by
  by_cases hk : j = k
  · subst hk
    rw [getVal_setVal_self] at h
    exact Or.inl ⟨rfl, (Option.some.inj h).symm⟩
  · rw [getVal_setVal_of_ne _ _ _ _ hk] at h
    exact Or.inr h

/-- The trivial shape for a no-op step. -/

theorem stepShape_nil (st : MMState) (ev : Event) :
    StepShape st st ev [] := by
  refine ⟨by simp, le_refl _, ?_, ?_, ?_, ?_, ?_, ?_⟩ <;>
    first
    | (intro e he; simp at he)
    | (intro i k h; exact Or.inl h)

/-- Shape of a step consisting of exactly one `_emit_node` call on an
unsuppressed owner with a cached parent. -/

theorem stepShape_emitNode (st : MMState) (ev : Event) (o : MMOwner)
    (text : Option String) (style : String) (cfg : StyleCfg) (pk : Nat)
    (hcfg : cfgFind o.typeKey = some cfg)
    (hids : o.oid ∈ evIds ev)
    (hsupp : suppressedOwner o = false)
    (hnb : noteBlocks o = 1)
    (hpk : ∃ i, getVal st.nodes i = some pk) :
    StepShape st
      ⟨st.elems ++ emitNodeElems st.nextKey pk o text style cfg,
       st.nextKey + 3, setVal st.nodes o.oid st.nextKey⟩
      ev (emitNodeElems st.nextKey pk o text style cfg) := by
  unfold StepShape
  simp only []
  refine ⟨trivial, by omega, ?_, ?_, ?_, ?_, ?_, ?_⟩
  · intro e he
    simp only [emitNodeElems, List.mem_cons, List.mem_singleton,
      List.not_mem_nil, or_false] at he
    rcases he with he | he | he <;> subst he <;> constructor <;> simp <;> omega
  · intro e he pk' hpk'
    simp only [emitNodeElems, List.mem_cons, List.mem_singleton,
      List.not_mem_nil, or_false] at he
    rcases he with he | he | he <;> subst he <;>
      simp only [Option.some.injEq] at hpk'
    · exact hpk' ▸ Or.inl hpk
    · exact Or.inr (by omega)
    · exact Or.inr (by omega)
  · intro e he htag
    simp only [emitNodeElems, List.mem_cons, List.mem_singleton,
      List.not_mem_nil, or_false] at he
    rcases he with he | he | he <;> subst he
    · simp at htag
    · exact ⟨st.nextKey, rfl, le_refl _⟩
    · exact ⟨st.nextKey, rfl, le_refl _⟩
  · intro i k h
    rcases getVal_setVal_inv _ _ _ _ _ h with ⟨hi, hk⟩ | hold
    · subst hi; subst hk
      exact Or.inr ⟨hids, le_refl _, by omega⟩
    · exact Or.inl hold
  · intro e he
    simp only [emitNodeElems, List.mem_cons, List.mem_singleton,
      List.not_mem_nil, or_false] at he
    rcases he with he | he | he <;> subst he <;>
      simp [suppressedSrc, hsupp]
  · intro e he o' hsrc htag
    simp only [emitNodeElems, List.mem_cons, List.mem_singleton,
      List.not_mem_nil, or_false] at he
    rcases he with he | he | he <;> subst he
    · simp only [Option.some.injEq] at hsrc
      subst hsrc
      constructor
      · simp only [kidsWithTag, emitNodeElems, List.filter]
        simp [fontAttrsOf, hcfg]
      · simp only [kidsWithTag, emitNodeElems, List.filter]
        simp [hnb]
    · simp at htag
    · simp at htag

/-- Shape of a step consisting of `_emit_node` followed by a second
explicit `_emit_notes` on the same owner (process topics, properties). -/

theorem stepShape_emitNode2 (st : MMState) (ev : Event) (o : MMOwner)
    (text : Option String) (style : String) (cfg : StyleCfg) (pk : Nat)
    (hcfg : cfgFind o.typeKey = some cfg)
    (hids : o.oid ∈ evIds ev)
    (hsupp : suppressedOwner o = false)
    (hnb : noteBlocks o = 2)
    (hpk : ∃ i, getVal st.nodes i = some pk) :
    StepShape st
      ⟨st.elems ++ (emitNodeElems st.nextKey pk o text style cfg ++
        [⟨st.nextKey + 3, some st.nextKey, "richcontent",
          [("TYPE", "NOTE")], getNotes o, some o⟩]),
       st.nextKey + 4, setVal st.nodes o.oid st.nextKey⟩
      ev (emitNodeElems st.nextKey pk o text style cfg ++
        [⟨st.nextKey + 3, some st.nextKey, "richcontent",
          [("TYPE", "NOTE")], getNotes o, some o⟩]) := by
  unfold StepShape
  simp only []
  refine ⟨trivial, by omega, ?_, ?_, ?_, ?_, ?_, ?_⟩
  · intro e he
    simp only [emitNodeElems, List.mem_append, List.mem_cons,
      List.mem_singleton, List.not_mem_nil, or_false] at he
    rcases he with (he | he | he) | he <;> subst he <;>
      constructor <;> simp <;> omega
  · intro e he pk' hpk'
    simp only [emitNodeElems, List.mem_append, List.mem_cons,
      List.mem_singleton, List.not_mem_nil, or_false] at he
    rcases he with (he | he | he) | he <;> subst he <;>
      simp only [Option.some.injEq] at hpk'
    · exact hpk' ▸ Or.inl hpk
    · exact Or.inr (by omega)
    · exact Or.inr (by omega)
    · exact Or.inr (by omega)
  · intro e he htag
    simp only [emitNodeElems, List.mem_append, List.mem_cons,
      List.mem_singleton, List.not_mem_nil, or_false] at he
    rcases he with (he | he | he) | he <;> subst he
    · simp at htag
    · exact ⟨st.nextKey, rfl, le_refl _⟩
    · exact ⟨st.nextKey, rfl, le_refl _⟩
    · exact ⟨st.nextKey, rfl, le_refl _⟩
  · intro i k h
    rcases getVal_setVal_inv _ _ _ _ _ h with ⟨hi, hk⟩ | hold
    · subst hi; subst hk
      exact Or.inr ⟨hids, le_refl _, by omega⟩
    · exact Or.inl hold
  · intro e he
    simp only [emitNodeElems, List.mem_append, List.mem_cons,
      List.mem_singleton, List.not_mem_nil, or_false] at he
    rcases he with (he | he | he) | he <;> subst he <;>
      simp [suppressedSrc, hsupp]
  · intro e he o' hsrc htag
    simp only [emitNodeElems, List.mem_append, List.mem_cons,
      List.mem_singleton, List.not_mem_nil, or_false] at he
    rcases he with (he | he | he) | he <;> subst he
    · simp only [Option.some.injEq] at hsrc
      subst hsrc
      constructor
      · simp only [kidsWithTag, emitNodeElems, List.filter_append,
          List.filter]
        simp [fontAttrsOf, hcfg]
      · simp only [kidsWithTag, emitNodeElems, List.filter_append,
          List.filter]
        simp [hnb]
    · simp at htag
    · simp at htag
    · simp at htag

theorem chChildElems_facts (chKey : Nat) :
    ∀ (l : List ChangeEntry) (k : Nat), ∀ e ∈ chChildElems chKey k l,
      k ≤ e.key ∧ e.key < k + 2 * l.length ∧ e.src = none ∧
      e.tag ≠ "font" ∧
      ((e.tag = "node" ∧ e.parent = some chKey) ∨
       (e.tag = "richcontent" ∧
        ∃ j, k ≤ j ∧ j < k + 2 * l.length ∧ e.parent = some j)) := by
  intro l
  induction l with
  | nil => intro k e he; simp [chChildElems] at he
  | cons ch rest ih =>
    intro k e he
    simp only [chChildElems, List.mem_cons] at he
    rcases he with he | he | he
    · subst he
      refine ⟨le_refl _, ?_, rfl, by simp, Or.inl ⟨rfl, rfl⟩⟩
      show k < k + 2 * (ch :: rest).length
      simp only [List.length_cons]
      omega
    · subst he
      refine ⟨Nat.le_succ k, ?_, rfl, by simp,
        Or.inr ⟨rfl, k, le_refl _, ?_, rfl⟩⟩
      · show k + 1 < k + 2 * (ch :: rest).length
        simp only [List.length_cons]
        omega
      · simp only [List.length_cons]
        omega
    · obtain ⟨h1, h2, h3, h4, h5⟩ := ih (k + 2) e he
      refine ⟨by omega, ?_, h3, h4, ?_⟩
      · simp only [List.length_cons]
        omega
      rcases h5 with h5 | ⟨ht, j, hj1, hj2, hj3⟩
      · exact Or.inl h5
      · refine Or.inr ⟨ht, j, by omega, ?_, hj3⟩
        simp only [List.length_cons]
        omega

theorem legendChildElems_facts (legKey : Nat) :
    ∀ (secs : List String) (k : Nat), ∀ e ∈ legendChildElems legKey k secs,
      k ≤ e.key ∧ e.key < k + 2 * secs.length ∧ e.src = none ∧
      e.tag ≠ "font" ∧
      ((e.tag = "node" ∧ e.parent = some legKey) ∨
       (e.tag = "richcontent" ∧
        ∃ j, k ≤ j ∧ j < k + 2 * secs.length ∧ e.parent = some j)) := by
  intro secs
  induction secs with
  | nil => intro k e he; simp [legendChildElems] at he
  | cons s rest ih =>
    intro k e he
    match hc : cfgFind s with
    | none =>
      rw [legendChildElems, hc] at he
      simp at he
    | some cfg =>
      rw [legendChildElems, hc] at he
      simp only [List.mem_cons] at he
      rcases he with he | he | he
      · subst he
        refine ⟨le_refl _, ?_, rfl, by simp, Or.inl ⟨rfl, rfl⟩⟩
        show k < k + 2 * (s :: rest).length
        simp only [List.length_cons]
        omega
      · subst he
        refine ⟨Nat.le_succ k, ?_, rfl, by simp,
          Or.inr ⟨rfl, k, le_refl _, ?_, rfl⟩⟩
        · show k + 1 < k + 2 * (s :: rest).length
          simp only [List.length_cons]
          omega
        · simp only [List.length_cons]
          omega
      · obtain ⟨h1, h2, h3, h4, h5⟩ := ih (k + 2) e he
        refine ⟨by omega, ?_, h3, h4, ?_⟩
        · simp only [List.length_cons]
          omega
        rcases h5 with h5 | ⟨ht, j, hj1, hj2, hj3⟩
        · exact Or.inl h5
        · refine Or.inr ⟨ht, j, by omega, ?_, hj3⟩
          simp only [List.length_cons]
          omega

theorem kidsWithTag_cons (e : XElem) (es : List XElem) (k : Nat)
    (tg : String) :
    kidsWithTag (e :: es) k tg =
      if e.parent = some k ∧ e.tag = tg then e :: kidsWithTag es k tg
      else kidsWithTag es k tg := by
  by_cases h : e.parent = some k ∧ e.tag = tg <;>
    simp [kidsWithTag, List.filter_cons, h]

theorem stepShape_root (st : MMState) (r : RootSpec) (cfg : StyleCfg)
    (hcfg : cfgFind r.type_key = some cfg) :
    StepShape st
      ⟨st.elems ++ rootBlock st.nextKey r cfg,
       st.nextKey + 22 + 2 * r.change_history.length,
       setVal st.nodes r.id (st.nextKey + 1)⟩
      (.rootParse r) (rootBlock st.nextKey r cfg) := by
  have hmem : ∀ e ∈ rootBlock st.nextKey r cfg,
      e = ⟨st.nextKey, none, "map", [], [], none⟩ ∨
      e ∈ emitNodeElems (st.nextKey + 1) st.nextKey (.ofRoot r) none
        "fork" cfg ∨
      e = ⟨st.nextKey + 4, some (st.nextKey + 1), "node",
        [("FOLDED", "true"), ("STYLE", "bubble"),
         ("TEXT", "CHANGE HISTORY"), ("POSITION", "left")], [], none⟩ ∨
      e ∈ chChildElems (st.nextKey + 4) (st.nextKey + 5)
        r.change_history ∨
      e = ⟨st.nextKey + 5 + 2 * r.change_history.length,
        some (st.nextKey + 1), "node",
        [("FOLDED", "true"), ("STYLE", "bubble"),
         ("TEXT", "LEGEND"), ("POSITION", "left")], [], none⟩ ∨
      e ∈ legendChildElems (st.nextKey + 5 + 2 * r.change_history.length)
        (st.nextKey + 5 + 2 * r.change_history.length + 1) SECTIONS := by
    intro e he
    simp only [rootBlock, chSectionElems, legSectionElems, List.mem_cons,
      List.mem_append] at he
    tauto
  unfold StepShape
  simp only []
  refine ⟨trivial, by omega, ?_, ?_, ?_, ?_, ?_, ?_⟩
  · intro e he
    rcases hmem e he with h | h | h | h | h | h
    · subst h; constructor <;> simp <;> omega
    · simp only [emitNodeElems, List.mem_cons, List.mem_singleton,
        List.not_mem_nil, or_false] at h
      rcases h with h | h | h <;> subst h <;> constructor <;> simp <;> omega
    · subst h; constructor <;> simp <;> omega
    · obtain ⟨h1, h2, _, _, _⟩ :=
        chChildElems_facts (st.nextKey + 4) r.change_history
          (st.nextKey + 5) e h
      exact ⟨by omega, by omega⟩
    · subst h; constructor <;> simp <;> omega
    · obtain ⟨h1, h2, _, _, _⟩ :=
        legendChildElems_facts (st.nextKey + 5 + 2 * r.change_history.length)
          SECTIONS (st.nextKey + 5 + 2 * r.change_history.length + 1) e h
      simp only [SECTIONS, List.length_cons, List.length_nil] at h2
      exact ⟨by omega, by omega⟩
  · intro e he pk hpk
    rcases hmem e he with h | h | h | h | h | h
    · subst h; simp at hpk
    · simp only [emitNodeElems, List.mem_cons, List.mem_singleton,
        List.not_mem_nil, or_false] at h
      rcases h with h | h | h <;> subst h <;>
        simp only [Option.some.injEq] at hpk <;>
        exact Or.inr (by omega)
    · subst h
      simp only [Option.some.injEq] at hpk
      exact Or.inr (by omega)
    · obtain ⟨h1, h2, _, _, h5⟩ :=
        chChildElems_facts (st.nextKey + 4) r.change_history
          (st.nextKey + 5) e h
      rcases h5 with ⟨_, hp⟩ | ⟨_, j, hj1, hj2, hj3⟩
      · rw [hp] at hpk
        simp only [Option.some.injEq] at hpk
        exact Or.inr (by omega)
      · rw [hj3] at hpk
        simp only [Option.some.injEq] at hpk
        exact Or.inr (by omega)
    · subst h
      simp only [Option.some.injEq] at hpk
      exact Or.inr (by omega)
    · obtain ⟨h1, h2, _, _, h5⟩ :=
        legendChildElems_facts (st.nextKey + 5 + 2 * r.change_history.length)
          SECTIONS (st.nextKey + 5 + 2 * r.change_history.length + 1) e h
      simp only [SECTIONS, List.length_cons, List.length_nil] at h2 h5
      rcases h5 with ⟨_, hp⟩ | ⟨_, j, hj1, hj2, hj3⟩
      · rw [hp] at hpk
        simp only [Option.some.injEq] at hpk
        exact Or.inr (by omega)
      · rw [hj3] at hpk
        simp only [Option.some.injEq] at hpk
        exact Or.inr (by omega)
  · intro e he htag
    rcases hmem e he with h | h | h | h | h | h
    · subst h; simp at htag
    · simp only [emitNodeElems, List.mem_cons, List.mem_singleton,
        List.not_mem_nil, or_false] at h
      rcases h with h | h | h <;> subst h
      · simp at htag
      · exact ⟨st.nextKey + 1, rfl, by omega⟩
      · exact ⟨st.nextKey + 1, rfl, by omega⟩
    · subst h; simp at htag
    · obtain ⟨h1, h2, _, hf, h5⟩ :=
        chChildElems_facts (st.nextKey + 4) r.change_history
          (st.nextKey + 5) e h
      rcases h5 with ⟨ht, _⟩ | ⟨ht, j, hj1, hj2, hj3⟩
      · rcases htag with htag | htag
        · exact absurd htag hf
        · rw [ht] at htag; simp at htag
      · exact ⟨j, hj3, by omega⟩
    · subst h; simp at htag
    · obtain ⟨h1, h2, _, hf, h5⟩ :=
        legendChildElems_facts (st.nextKey + 5 + 2 * r.change_history.length)
          SECTIONS (st.nextKey + 5 + 2 * r.change_history.length + 1) e h
      rcases h5 with ⟨ht, _⟩ | ⟨ht, j, hj1, hj2, hj3⟩
      · rcases htag with htag | htag
        · exact absurd htag hf
        · rw [ht] at htag; simp at htag
      · exact ⟨j, hj3, by omega⟩
  · intro i k h
    rcases getVal_setVal_inv _ _ _ _ _ h with ⟨hi, hk⟩ | hold
    · subst hi; subst hk
      exact Or.inr ⟨by simp [evIds], by omega, by omega⟩
    · exact Or.inl hold
  · intro e he
    rcases hmem e he with h | h | h | h | h | h
    · subst h; rfl
    · simp only [emitNodeElems, List.mem_cons, List.mem_singleton,
        List.not_mem_nil, or_false] at h
      rcases h with h | h | h <;> subst h <;> rfl
    · subst h; rfl
    · obtain ⟨_, _, hs, _, _⟩ :=
        chChildElems_facts (st.nextKey + 4) r.change_history
          (st.nextKey + 5) e h
      simp [suppressedSrc, hs]
    · subst h; rfl
    · obtain ⟨_, _, hs, _, _⟩ :=
        legendChildElems_facts (st.nextKey + 5 + 2 * r.change_history.length)
          SECTIONS (st.nextKey + 5 + 2 * r.change_history.length + 1) e h
      simp [suppressedSrc, hs]
  · intro e he o hsrc htag
    have hchn : kidsWithTag (chChildElems (st.nextKey + 4)
        (st.nextKey + 4 + 1) r.change_history) (st.nextKey + 1) "font" =
        [] := by
      apply kidsWithTag_nil_of
      intro e' he'
      obtain ⟨_, _, _, hf, _⟩ :=
        chChildElems_facts (st.nextKey + 4) r.change_history
          (st.nextKey + 4 + 1) e' he'
      intro ⟨_, ht⟩
      exact hf ht
    have hlegn : kidsWithTag (legendChildElems
        (st.nextKey + 5 + 2 * r.change_history.length)
        (st.nextKey + 5 + 2 * r.change_history.length + 1) SECTIONS)
        (st.nextKey + 1) "font" = [] := by
      apply kidsWithTag_nil_of
      intro e' he'
      obtain ⟨_, _, _, hf, _⟩ :=
        legendChildElems_facts (st.nextKey + 5 + 2 * r.change_history.length)
          SECTIONS (st.nextKey + 5 + 2 * r.change_history.length + 1) e' he'
      intro ⟨_, ht⟩
      exact hf ht
    have hchr : kidsWithTag (chChildElems (st.nextKey + 4)
        (st.nextKey + 4 + 1) r.change_history) (st.nextKey + 1)
        "richcontent" = [] := by
      apply kidsWithTag_nil_of
      intro e' he'
      obtain ⟨_, _, _, _, h5⟩ :=
        chChildElems_facts (st.nextKey + 4) r.change_history
          (st.nextKey + 4 + 1) e' he'
      intro ⟨hp, ht⟩
      rcases h5 with ⟨ht', _⟩ | ⟨_, j, hj1, hj2, hj3⟩
      · rw [ht'] at ht; simp at ht
      · rw [hj3] at hp
        simp only [Option.some.injEq] at hp
        omega
    have hlegr : kidsWithTag (legendChildElems
        (st.nextKey + 5 + 2 * r.change_history.length)
        (st.nextKey + 5 + 2 * r.change_history.length + 1) SECTIONS)
        (st.nextKey + 1) "richcontent" = [] := by
      apply kidsWithTag_nil_of
      intro e' he'
      obtain ⟨_, _, _, _, h5⟩ :=
        legendChildElems_facts (st.nextKey + 5 + 2 * r.change_history.length)
          SECTIONS (st.nextKey + 5 + 2 * r.change_history.length + 1) e' he'
      intro ⟨hp, ht⟩
      rcases h5 with ⟨ht', _⟩ | ⟨_, j, hj1, hj2, hj3⟩
      · rw [ht'] at ht; simp at ht
      · rw [hj3] at hp
        simp only [Option.some.injEq] at hp
        omega
    rcases hmem e he with h | h | h | h | h | h
    · subst h; simp at hsrc
    · simp only [emitNodeElems, List.mem_cons, List.mem_singleton,
        List.not_mem_nil, or_false] at h
      rcases h with h | h | h <;> subst h
      · simp only [Option.some.injEq] at hsrc
        subst hsrc
        constructor
        · simp only [rootBlock, chSectionElems, legSectionElems,
            emitNodeElems, List.cons_append, List.nil_append,
            List.append_assoc]
          simp only [kidsWithTag_cons, kidsWithTag_append]
          rw [hchn, hlegn]
          simp [fontAttrsOf, MMOwner.typeKey, hcfg]
        · simp only [rootBlock, chSectionElems, legSectionElems,
            emitNodeElems, List.cons_append, List.nil_append,
            List.append_assoc]
          simp only [kidsWithTag_cons, kidsWithTag_append]
          rw [hchr, hlegr]
          simp [noteBlocks]
      · simp at htag
      · simp at htag
    · subst h; simp at hsrc
    · obtain ⟨_, _, hs, _, _⟩ :=
        chChildElems_facts (st.nextKey + 4) r.change_history
          (st.nextKey + 5) e h
      rw [hs] at hsrc
      simp at hsrc
    · subst h; simp at hsrc
    · obtain ⟨_, _, hs, _, _⟩ :=
        legendChildElems_facts (st.nextKey + 5 + 2 * r.change_history.length)
          SECTIONS (st.nextKey + 5 + 2 * r.change_history.length + 1) e h
      rw [hs] at hsrc
      simp at hsrc

/-- Every successful Graph-Form event step has the `StepShape` form for
some extension of the element list. -/

theorem mmStep_shape (rid : String) (st : MMState) (ev : Event)
    (st' : MMState) (h : mmStep rid st ev = .ok st') :
    ∃ ext, StepShape st st' ev ext := by
  cases ev with
  | rootParse r =>
    match hc : cfgFind r.type_key with
    | none =>
      exfalso
      simp [mmStep, emitNode, MMOwner.typeKey, hc, Bind.bind,
        Except.bind] at h
    | some cfg =>
      rw [mmStep_root_eq rid st r cfg hc] at h
      have he := Except.ok.inj h
      subst he
      exact ⟨rootBlock st.nextKey r cfg, stepShape_root st r cfg hc⟩
  | rootParsed r =>
    have he : st = st' := Except.ok.inj h
    subst he
    exact ⟨[], stepShape_nil st _⟩
  | topicParse t =>
    cases hemit : emitNode st (.nodeRef rid) (.ofTopic t) none "bubble" with
    | error e =>
      exfalso
      simp [mmStep, hemit, Bind.bind, Except.bind] at h
    | ok st1 =>
      obtain ⟨cfg, pk, hcfg, hpk, hst1⟩ := emitNode_inv _ _ _ _ _ _ hemit
      have hcached : ∃ i, getVal st.nodes i = some pk := by
        rcases resolveParent_inv st _ pk hpk with h' | h'
        · simp at h'
        · exact h'
      cases htk : t.kind with
      | process =>
        have hh : emitNotesOwner st1 (.ofTopic t) = .ok st' := by
          simp only [mmStep, hemit, htk, Bind.bind, Except.bind] at h
          exact h
        obtain ⟨pk2, hpk2, hst'⟩ := emitNotesOwner_inv _ _ _ hh
        subst hst1
        simp only [getVal_setVal_self] at hpk2
        have hpk2' : pk2 = st.nextKey := (Option.some.inj hpk2).symm
        subst hpk2'
        have hst'' : st' =
            ⟨st.elems ++ (emitNodeElems st.nextKey pk (.ofTopic t) none
              "bubble" cfg ++
              [⟨st.nextKey + 3, some st.nextKey, "richcontent",
                [("TYPE", "NOTE")], getNotes (.ofTopic t),
                some (.ofTopic t)⟩]),
             st.nextKey + 4, setVal st.nodes (MMOwner.ofTopic t).oid
               st.nextKey⟩ := by
          rw [hst']
          simp [List.append_assoc]
        subst hst''
        exact ⟨_, stepShape_emitNode2 st (.topicParse t) (.ofTopic t)
          none "bubble" cfg pk hcfg (by simp [evIds, MMOwner.oid])
          (by simp [suppressedOwner]) (by simp [noteBlocks, htk]) hcached⟩
      | grid =>
        have he : st1 = st' := by
          simp only [mmStep, hemit, htk, Bind.bind, Except.bind] at h
          exact Except.ok.inj h
        subst he
        subst hst1
        exact ⟨_, stepShape_emitNode st (.topicParse t) (.ofTopic t)
          none "bubble" cfg pk hcfg (by simp [evIds, MMOwner.oid])
          (by simp [suppressedOwner]) (by simp [noteBlocks, htk]) hcached⟩
      | keyprops =>
        have he : st1 = st' := by
          simp only [mmStep, hemit, htk, Bind.bind, Except.bind] at h
          exact Except.ok.inj h
        subst he
        subst hst1
        exact ⟨_, stepShape_emitNode st (.topicParse t) (.ofTopic t)
          none "bubble" cfg pk hcfg (by simp [evIds, MMOwner.oid])
          (by simp [suppressedOwner]) (by simp [noteBlocks, htk]) hcached⟩
  | subprocessParse s pid =>
    have hh : emitNode st (.nodeRef pid) (.ofSub s) none "bubble" =
        .ok st' := h
    obtain ⟨cfg, pk, hcfg, hpk, hst'⟩ := emitNode_inv _ _ _ _ _ _ hh
    have hcached : ∃ i, getVal st.nodes i = some pk := by
      rcases resolveParent_inv st _ pk hpk with h' | h'
      · simp at h'
      · exact h'
    subst hst'
    exact ⟨_, stepShape_emitNode st (.subprocessParse s pid) (.ofSub s)
      none "bubble" cfg pk hcfg (by simp [evIds, MMOwner.oid])
      (by simp [suppressedOwner]) (by simp [noteBlocks]) hcached⟩
  | propertySetParse ps oid =>
    by_cases hflag : ps.are_cim_properties
    · have he : st = st' := by
        simp only [mmStep, hflag, if_true] at h
        exact Except.ok.inj h
      subst he
      exact ⟨[], stepShape_nil st _⟩
    · have hh : emitNode st (.nodeRef oid) (.ofPS ps) none "bubble" =
          .ok st' := by
        simp only [mmStep, hflag, if_false] at h
        exact h
      obtain ⟨cfg, pk, hcfg, hpk, hst'⟩ := emitNode_inv _ _ _ _ _ _ hh
      have hcached : ∃ i, getVal st.nodes i = some pk := by
        rcases resolveParent_inv st _ pk hpk with h' | h'
        · simp at h'
        · exact h'
      subst hst'
      exact ⟨_, stepShape_emitNode st (.propertySetParse ps oid) (.ofPS ps)
        none "bubble" cfg pk hcfg
        (by simp [evIds, MMOwner.oid, hflag])
        (by simp [suppressedOwner, hflag]) (by simp [noteBlocks]) hcached⟩
  | propertyParse p oid rtid =>
    by_cases hflag : p.was_injected
    · have he : st = st' := by
        simp only [mmStep, hflag, if_true] at h
        exact Except.ok.inj h
      subst he
      exact ⟨[], stepShape_nil st _⟩
    · cases hemit : emitNode st (.nodeRef oid) (.ofProp p) none "bubble" with
      | error e =>
        exfalso
        simp [mmStep, hflag, hemit, Bind.bind, Except.bind] at h
      | ok st1 =>
        obtain ⟨cfg, pk, hcfg, hpk, hst1⟩ := emitNode_inv _ _ _ _ _ _ hemit
        have hcached : ∃ i, getVal st.nodes i = some pk := by
          rcases resolveParent_inv st _ pk hpk with h' | h'
          · simp at h'
          · exact h'
        have hh : emitNotesOwner st1 (.ofProp p) = .ok st' := by
          simp only [mmStep, hflag, if_false, hemit, Bind.bind,
            Except.bind] at h
          exact h
        obtain ⟨pk2, hpk2, hst'⟩ := emitNotesOwner_inv _ _ _ hh
        subst hst1
        simp only [getVal_setVal_self] at hpk2
        have hpk2' : pk2 = st.nextKey := (Option.some.inj hpk2).symm
        subst hpk2'
        have hst'' : st' =
            ⟨st.elems ++ (emitNodeElems st.nextKey pk (.ofProp p) none
              "bubble" cfg ++
              [⟨st.nextKey + 3, some st.nextKey, "richcontent",
                [("TYPE", "NOTE")], getNotes (.ofProp p),
                some (.ofProp p)⟩]),
             st.nextKey + 4, setVal st.nodes (MMOwner.ofProp p).oid
               st.nextKey⟩ := by
          rw [hst']
          simp [List.append_assoc]
        subst hst''
        exact ⟨_, stepShape_emitNode2 st (.propertyParse p oid rtid)
          (.ofProp p) none "bubble" cfg pk hcfg
          (by simp [evIds, MMOwner.oid, hflag])
          (by simp [suppressedOwner, hflag]) (by simp [noteBlocks]) hcached⟩
  | enumChoiceParse c did =>
    have hh : emitNode st (.nodeRef did) (.ofChoice c) (some c.value)
        "bubble" = .ok st' := h
    obtain ⟨cfg, pk, hcfg, hpk, hst'⟩ := emitNode_inv _ _ _ _ _ _ hh
    have hcached : ∃ i, getVal st.nodes i = some pk := by
      rcases resolveParent_inv st _ pk hpk with h' | h'
      · simp at h'
      · exact h'
    subst hst'
    exact ⟨_, stepShape_emitNode st (.enumChoiceParse c did) (.ofChoice c)
      (some c.value) "bubble" cfg pk hcfg (by simp [evIds, MMOwner.oid])
      (by simp [suppressedOwner]) (by simp [noteBlocks]) hcached⟩

theorem mmStep_preserves (rid : String) (st st' : MMState) (ev : Event)
    (h : mmStep rid st ev = .ok st')
    (hb : MMBound st) (hd : DecorOK st) (hn : NoSuppressed st) :
    MMBound st' ∧ DecorOK st' ∧ NoSuppressed st' := by
  obtain ⟨ext, hsh⟩ := mmStep_shape rid st ev st' h
  obtain ⟨hel, hnk, hkeys, hpar, hfr, hnodes, hsupp, hdec⟩ := hsh
  refine ⟨⟨?_, ?_⟩, ?_, ?_⟩
  · intro e he
    rw [hel] at he
    rcases List.mem_append.mp he with he | he
    · obtain ⟨h1, h2⟩ := hb.1 e he
      exact ⟨by omega, fun pk hpk => by have := h2 pk hpk; omega⟩
    · obtain ⟨h1, h2⟩ := hkeys e he
      refine ⟨h2, fun pk hpk => ?_⟩
      rcases hpar e he pk hpk with ⟨i, hi⟩ | ⟨_, h4⟩
      · have := hb.2 i pk hi
        omega
      · exact h4
  · intro i k hik
    rcases hnodes i k hik with hik' | ⟨_, _, h3⟩
    · have := hb.2 i k hik'
      omega
    · exact h3
  · intro e he o hsrc htag
    rw [hel] at he
    rcases List.mem_append.mp he with he | he
    · have hkey : e.key < st.nextKey := (hb.1 e he).1
      have hextnil : ∀ tg, tg = "font" ∨ tg = "richcontent" →
          kidsWithTag ext e.key tg = [] := by
        intro tg htg
        apply kidsWithTag_nil_of
        intro e' he'
        intro ⟨hp, ht⟩
        obtain ⟨pk, hpk, hfresh⟩ := hfr e' he' (by
          rcases htg with htg | htg
          · exact Or.inl (ht.trans htg)
          · exact Or.inr (ht.trans htg))
        rw [hp] at hpk
        have := Option.some.inj hpk
        omega
      have hold := hd e he o hsrc htag
      rw [hel, kidsWithTag_append, kidsWithTag_append,
        hextnil "font" (Or.inl rfl), hextnil "richcontent" (Or.inr rfl),
        List.append_nil, List.append_nil]
      exact hold
    · have hkey : st.nextKey ≤ e.key := (hkeys e he).1
      have holdnil : ∀ tg, kidsWithTag st.elems e.key tg = [] := by
        intro tg
        apply kidsWithTag_nil_of
        intro e' he'
        intro ⟨hp, _⟩
        have := (hb.1 e' he').2 e.key hp
        omega
      have hnew := hdec e he o hsrc htag
      rw [hel, kidsWithTag_append, kidsWithTag_append,
        holdnil "font", holdnil "richcontent",
        List.nil_append, List.nil_append]
      exact hnew
  · intro e he
    rw [hel] at he
    rcases List.mem_append.mp he with he | he
    · exact hn e he
    · exact hsupp e he

theorem exRun_mm_preserves (rid : String) :
    ∀ (evs : List Event) (st st' : MMState),
      exRun (mmStep rid) st evs = .ok st' →
      MMBound st → DecorOK st → NoSuppressed st →
      MMBound st' ∧ DecorOK st' ∧ NoSuppressed st' := by
  intro evs
  induction evs with
  | nil =>
    intro st st' h hb hd hn
    have he : st = st' := Except.ok.inj h
    subst he
    exact ⟨hb, hd, hn⟩
  | cons ev rest ih =>
    intro st st' h hb hd hn
    cases hstep : mmStep rid st ev with
    | error e => rw [exRun, hstep] at h; exact absurd h (by simp)
    | ok st1 =>
      rw [exRun_cons_ok _ _ _ _ _ hstep] at h
      obtain ⟨hb1, hd1, hn1⟩ := mmStep_preserves rid st st1 ev hstep hb hd hn
      exact ih st1 st' h hb1 hd1 hn1

theorem mmRun_invariants (r : RootSpec) (st' : MMState)
    (h : mmRun r = .ok st') :
    MMBound st' ∧ DecorOK st' ∧ NoSuppressed st' := by
  apply exRun_mm_preserves r.id (rootEvents r) ⟨[], 0, []⟩ st' h
  · exact ⟨fun e he => by simp at he, fun i k hik => by simp [getVal] at hik⟩
  · intro e he; simp at he
  · intro e he; simp at he

/-- `_emit_node` with a model-node parent fails when the parent is not in
the cache (`self.nodes[parent]` raises). -/

theorem emitNode_nodeRef_err (st : MMState) (i : String) (o : MMOwner)
    (text : Option String) (style : String)
    (h : getVal st.nodes i = none) :
    ∀ st', emitNode st (.nodeRef i) o text style ≠ .ok st' := by
  intro st' hc
  obtain ⟨cfg, pk, _, hpk, _⟩ := emitNode_inv _ _ _ _ _ _ hc
  simp [resolveParent, h] at hpk

/-- A key never inserted stays absent from the node cache. -/

theorem exRun_nodes_none (rid : String) (x : String) :
    ∀ (evs : List Event) (st st' : MMState),
      exRun (mmStep rid) st evs = .ok st' →
      (∀ ev ∈ evs, x ∉ evIds ev) →
      getVal st.nodes x = none →
      getVal st'.nodes x = none := by
  intro evs
  induction evs with
  | nil =>
    intro st st' h _ h0
    have he : st = st' := Except.ok.inj h
    subst he
    exact h0
  | cons ev rest ih =>
    intro st st' h hxl h0
    cases hstep : mmStep rid st ev with
    | error e => rw [exRun, hstep] at h; exact absurd h (by simp)
    | ok st1 =>
      rw [exRun_cons_ok _ _ _ _ _ hstep] at h
      obtain ⟨ext, hsh⟩ := mmStep_shape rid st ev st1 hstep
      obtain ⟨_, _, _, _, _, hnodes, _, _⟩ := hsh
      have h1 : getVal st1.nodes x = none := by
        cases hg : getVal st1.nodes x with
        | none => rfl
        | some k =>
          rcases hnodes x k hg with hg' | ⟨hmem, _, _⟩
          · rw [h0] at hg'; exact absurd hg' (by simp)
          · exact absurd hmem (hxl ev (by simp))
      exact ih st1 st' h (fun e he => hxl e (by simp [he])) h1

/-- An enum-choice event whose detail property was never cached makes
the whole run fail. -/

theorem mmRun_err_of_orphan_choice (rid : String) (c : ChoiceData)
    (did : String) (l1 l2 : List Event) (st : MMState)
    (h0 : getVal st.nodes did = none)
    (hl1 : ∀ ev ∈ l1, did ∉ evIds ev) :
    ∀ st', exRun (mmStep rid) st
      (l1 ++ Event.enumChoiceParse c did :: l2) ≠ .ok st' := by
  intro st' hok
  cases hsplit : exRun (mmStep rid) st l1 with
  | error e => rw [exRun_append, hsplit] at hok; exact absurd hok (by simp)
  | ok st1 =>
    rw [exRun_append_ok _ _ _ _ _ hsplit] at hok
    have h1 : getVal st1.nodes did = none :=
      exRun_nodes_none rid did l1 st st1 hsplit hl1 h0
    cases hstep : mmStep rid st1 (.enumChoiceParse c did) with
    | error e => rw [exRun, hstep] at hok; exact absurd hok (by simp)
    | ok st2 =>
      exact emitNode_nodeRef_err st1 did (.ofChoice c) (some c.value)
        "bubble" h1 st2 hstep

/-- The choice enter event of any choice of any property of the tree is
in the traversal's event stream. -/

theorem choiceEvent_mem (r : RootSpec) (p : PropData) (en : EnumData)
    (c : ChoiceData) (hp : p ∈ treeProps r) (hen : p.enum = some en)
    (hc : c ∈ en.choices) :
    Event.enumChoiceParse c p.id ∈ rootEvents r := by
  have hprop : ∀ ownerId rtid : String,
      Event.enumChoiceParse c p.id ∈ propEvents ownerId rtid p := by
    intro ownerId rtid
    simp only [propEvents, hen, List.mem_cons]
    right
    exact List.mem_map_of_mem _ hc
  simp only [treeProps, List.mem_flatten] at hp
  obtain ⟨l, hl, hpl⟩ := hp
  obtain ⟨t, ht, htl⟩ := List.mem_map.mp hl
  subst htl
  simp only [topicProps, List.mem_flatten] at hpl
  obtain ⟨l2', hl2, hpl2⟩ := hpl
  obtain ⟨it, hit, hitl⟩ := List.mem_map.mp hl2
  subst hitl
  have hev : Event.enumChoiceParse c p.id ∈ topicItemEvents t.id it := by
    cases it with
    | psT ps =>
      simp only [itemProps] at hpl2
      simp only [topicItemEvents, List.mem_cons]
      right
      rw [List.mem_flatten]
      exact ⟨propEvents ps.id t.id p,
        List.mem_map_of_mem _ hpl2, hprop ps.id t.id⟩
    | propT p' =>
      simp only [itemProps, List.mem_singleton] at hpl2
      subst hpl2
      exact hprop t.id t.id
    | subT s =>
      simp only [itemProps, subProps, List.mem_flatten] at hpl2
      obtain ⟨l3', hl3, hpl3⟩ := hpl2
      obtain ⟨sit, hsit, hsitl⟩ := List.mem_map.mp hl3
      subst hsitl
      simp only [topicItemEvents, List.mem_cons]
      right
      rw [List.mem_flatten]
      refine ⟨subItemEvents s.id t.id sit, List.mem_map_of_mem _ hsit, ?_⟩
      cases sit with
      | psI ps =>
        simp only [subItemProps] at hpl3
        simp only [subItemEvents, List.mem_cons]
        right
        rw [List.mem_flatten]
        exact ⟨propEvents ps.id t.id p,
          List.mem_map_of_mem _ hpl3, hprop ps.id t.id⟩
      | propI p' =>
        simp only [subItemProps, List.mem_singleton] at hpl3
        subst hpl3
        exact hprop s.id t.id
  simp only [rootEvents, List.mem_cons, List.mem_append]
  right
  left
  rw [List.mem_flatten]
  refine ⟨topicEvents t, List.mem_map_of_mem _ ht, ?_⟩
  simp only [topicEvents, List.mem_cons]
  right
  rw [List.mem_flatten]
  exact ⟨topicItemEvents t.id it, List.mem_map_of_mem _ hit, hev⟩

/-- After the root event, later events only append elements with keys at
least `K` whose parents are the root's node element (key 1) or fresh. -/

theorem exRun_root_stable (rid : String) (K : Nat) :
    ∀ (evs : List Event) (st st' : MMState),
      exRun (mmStep rid) st evs = .ok st' →
      (∀ i k, getVal st.nodes i = some k → k = 1 ∨ K ≤ k) →
      K ≤ st.nextKey →
      ∃ ext, st'.elems = st.elems ++ ext ∧
        (∀ e ∈ ext, K ≤ e.key ∧
          ∀ pk, e.parent = some pk → pk = 1 ∨ K ≤ pk) := by
  intro evs
  induction evs with
  | nil =>
    intro st st' h _ _
    have he : st = st' := Except.ok.inj h
    subst he
    exact ⟨[], by simp, fun e he => by simp at he⟩
  | cons ev rest ih =>
    intro st st' h hnodes hK
    cases hstep : mmStep rid st ev with
    | error e => rw [exRun, hstep] at h; exact absurd h (by simp)
    | ok st1 =>
      rw [exRun_cons_ok _ _ _ _ _ hstep] at h
      obtain ⟨ext1, hsh⟩ := mmStep_shape rid st ev st1 hstep
      obtain ⟨hel, hnk, hkeys, hpar, _, hnodes1, _, _⟩ := hsh
      have hn1 : ∀ i k, getVal st1.nodes i = some k → k = 1 ∨ K ≤ k := by
        intro i k hik
        rcases hnodes1 i k hik with h' | ⟨_, h2, _⟩
        · exact hnodes i k h'
        · exact Or.inr (by omega)
      obtain ⟨ext2, hel2, hext2⟩ := ih st1 st' h hn1 (by omega)
      refine ⟨ext1 ++ ext2, by rw [hel2, hel, List.append_assoc], ?_⟩
      intro e he
      rcases List.mem_append.mp he with he | he
      · obtain ⟨h1, _⟩ := hkeys e he
        refine ⟨by omega, fun pk hpk => ?_⟩
        rcases hpar e he pk hpk with ⟨i, hi⟩ | ⟨h3, _⟩
        · exact hnodes i pk hi
        · exact Or.inr (by omega)
      · exact hext2 e he

/-- The elements of a successful Graph-Form run are the root block (with
keys from 0) followed by elements that never point back into the
change-history or legend sections. -/

theorem mmRun_prefix (r : RootSpec) (st' : MMState) (h : mmRun r = .ok st') :
    ∃ cfg, cfgFind r.type_key = some cfg ∧
      ∃ ext, st'.elems = rootBlock 0 r cfg ++ ext ∧
        (∀ e ∈ ext, 22 + 2 * r.change_history.length ≤ e.key ∧
          ∀ pk, e.parent = some pk →
            pk = 1 ∨ 22 + 2 * r.change_history.length ≤ pk) := by
  unfold mmRun rootEvents at h
  match hc : cfgFind r.type_key with
  | none =>
    exfalso
    have hstep : ∀ st'', mmStep r.id ⟨[], 0, []⟩ (.rootParse r) ≠
        .ok st'' := by
      intro st'' hs
      simp [mmStep, emitNode, MMOwner.typeKey, hc, Bind.bind,
        Except.bind] at hs
    cases hs : mmStep r.id ⟨[], 0, []⟩ (.rootParse r) with
    | error e => rw [exRun, hs] at h; exact absurd h (by simp)
    | ok st1 => exact hstep st1 hs
  | some cfg =>
    rw [exRun_cons_ok _ _ _ _ _
      (mmStep_root_eq r.id ⟨[], 0, []⟩ r cfg hc)] at h
    obtain ⟨ext, hel, hext⟩ := exRun_root_stable r.id
      (22 + 2 * r.change_history.length) _ _ _ h
      (by
        intro i k hik
        rcases getVal_setVal_inv _ _ _ _ _ hik with ⟨_, hk⟩ | hold
        · exact Or.inl hk
        · simp [getVal] at hold)
      (by
        show 22 + 2 * r.change_history.length ≤
          0 + 22 + 2 * r.change_history.length
        omega)
    refine ⟨cfg, rfl, ext, ?_, hext⟩
    simpa using hel

theorem chKidSpec_key_bounds (chKey : Nat) :
    ∀ (l : List ChangeEntry) (k : Nat), ∀ e ∈ chKidSpec chKey k l,
      k ≤ e.key ∧ e.key < k + 2 * l.length := by
  intro l
  induction l with
  | nil => intro k e he; simp [chKidSpec] at he
  | cons ch rest ih =>
    intro k e he
    simp only [chKidSpec, List.mem_cons] at he
    rcases he with he | he
    · subst he
      constructor
      · exact le_refl _
      · show k < k + 2 * (ch :: rest).length
        simp only [List.length_cons]
        omega
    · obtain ⟨h1, h2⟩ := ih (k + 2) e he
      constructor
      · omega
      · simp only [List.length_cons]
        omega

theorem childNodes_chChildElems (chKey : Nat) :
    ∀ (l : List ChangeEntry) (k : Nat), chKey < k →
      childNodes (chChildElems chKey k l) chKey = chKidSpec chKey k l := by
  intro l
  induction l with
  | nil => intro k _; simp [chChildElems, chKidSpec, childNodes, kidsWithTag]
  | cons ch rest ih =>
    intro k hk
    simp only [chChildElems, chKidSpec, childNodes]
    rw [kidsWithTag_cons, if_pos (by simp)]
    rw [kidsWithTag_cons, if_neg (by simp <;> omega)]
    rw [← childNodes, ih (k + 2) (by omega)]

theorem chChild_notes (chKey : Nat) :
    ∀ (l : List ChangeEntry) (k : Nat), chKey < k →
      (chKidSpec chKey k l).map (fun e =>
        (kidsWithTag (chChildElems chKey k l) e.key "richcontent").map
          (fun x => x.notes)) = l.map (fun ch => [chNotes ch]) := by
  intro l
  induction l with
  | nil => intro k _; simp [chKidSpec, chChildElems]
  | cons ch rest ih =>
    intro k hk
    have hunf : chChildElems chKey k (ch :: rest) =
        ⟨k, some chKey, "node",
          [("STYLE", "bubble"), ("TEXT", ch.version)], [], none⟩ ::
        ⟨k + 1, some k, "richcontent", [("TYPE", "NOTE")], chNotes ch,
          none⟩ ::
        chChildElems chKey (k + 2) rest := rfl
    simp only [chKidSpec, List.map_cons]
    congr 1
    · rw [hunf]
      rw [kidsWithTag_cons, if_neg (by simp <;> omega)]
      rw [kidsWithTag_cons, if_pos (by simp)]
      rw [kidsWithTag_nil_of _ _ _ (by
        intro e' he'
        intro ⟨hp, _⟩
        obtain ⟨_, _, _, _, h5⟩ :=
          chChildElems_facts chKey rest (k + 2) e' he'
        rcases h5 with ⟨_, hpar⟩ | ⟨_, j, hj1, _, hj3⟩
        · rw [hpar] at hp
          have := Option.some.inj hp
          omega
        · rw [hj3] at hp
          have := Option.some.inj hp
          omega)]
      rfl
    · have hmapeq : (chKidSpec chKey (k + 2) rest).map (fun e =>
          (kidsWithTag (chChildElems chKey k (ch :: rest)) e.key
            "richcontent").map (fun x => x.notes)) =
          (chKidSpec chKey (k + 2) rest).map (fun e =>
            (kidsWithTag (chChildElems chKey (k + 2) rest) e.key
              "richcontent").map (fun x => x.notes)) := by
        apply List.map_congr_left
        intro e he
        obtain ⟨hk1, _⟩ := chKidSpec_key_bounds chKey rest (k + 2) e he
        rw [hunf]
        rw [kidsWithTag_cons, if_neg (by simp <;> omega)]
        rw [kidsWithTag_cons, if_neg (by simp <;> omega)]
      rw [hmapeq, ih (k + 2) (by omega)]

theorem legKidSpec_key_bounds (legKey : Nat) :
    ∀ (secs : List String) (k : Nat), ∀ e ∈ legKidSpec legKey k secs,
      k ≤ e.key ∧ e.key < k + 2 * secs.length := by
  intro secs
  induction secs with
  | nil => intro k e he; simp [legKidSpec] at he
  | cons s rest ih =>
    intro k e he
    match hc : cfgFind s with
    | none => rw [legKidSpec, hc] at he; simp at he
    | some cfg =>
      rw [legKidSpec, hc] at he
      simp only [List.mem_cons] at he
      rcases he with he | he
      · subst he
        constructor
        · exact le_refl _
        · show k < k + 2 * (s :: rest).length
          simp only [List.length_cons]
          omega
      · obtain ⟨h1, h2⟩ := ih (k + 2) e he
        constructor
        · omega
        · simp only [List.length_cons]
          omega

theorem childNodes_legendChildElems (legKey : Nat) :
    ∀ (secs : List String) (k : Nat), legKey < k →
      childNodes (legendChildElems legKey k secs) legKey =
        legKidSpec legKey k secs := by
  intro secs
  induction secs with
  | nil =>
    intro k _
    simp [legendChildElems, legKidSpec, childNodes, kidsWithTag]
  | cons s rest ih =>
    intro k hk
    match hc : cfgFind s with
    | none =>
      rw [legendChildElems, legKidSpec, hc]
      simp [childNodes, kidsWithTag]
    | some cfg =>
      rw [legendChildElems, legKidSpec, hc]
      simp only [childNodes]
      rw [kidsWithTag_cons, if_pos (by simp)]
      rw [kidsWithTag_cons, if_neg (by simp <;> omega)]
      rw [← childNodes, ih (k + 2) (by omega)]

theorem legChild_notes (legKey : Nat) :
    ∀ (secs : List String) (k : Nat), legKey < k →
      (∀ s ∈ secs, (cfgFind s).isSome) →
      (legKidSpec legKey k secs).map (fun e =>
        (kidsWithTag (legendChildElems legKey k secs) e.key
          "richcontent").map (fun x => x.notes)) =
      secs.map (fun s =>
        [[("Description",
            match cfgFind s with
            | some cfg => cfg.descr
            | none => "")]]) := by
  intro secs
  induction secs with
  | nil => intro k _ _; simp [legKidSpec, legendChildElems]
  | cons s rest ih =>
    intro k hk hall
    obtain ⟨cfg, hc⟩ := Option.isSome_iff_exists.mp (hall s (by simp))
    have hunf : legendChildElems legKey k (s :: rest) =
        ⟨k, some legKey, "node",
          [("BACKGROUND_COLOR", cfg.bgColor), ("COLOR", cfg.fontColor),
           ("STYLE", "bubble"), ("TEXT", s)], [], none⟩ ::
        ⟨k + 1, some k, "richcontent", [("TYPE", "NOTE")],
          [("Description", cfg.descr)], none⟩ ::
        legendChildElems legKey (k + 2) rest := by
      rw [legendChildElems, hc]
    rw [legKidSpec, hc]
    simp only [List.map_cons]
    congr 1
    · rw [hunf]
      rw [kidsWithTag_cons, if_neg (by simp <;> omega)]
      rw [kidsWithTag_cons, if_pos (by simp)]
      rw [kidsWithTag_nil_of _ _ _ (by
        intro e' he'
        intro ⟨hp, _⟩
        obtain ⟨_, _, _, _, h5⟩ :=
          legendChildElems_facts legKey rest (k + 2) e' he'
        rcases h5 with ⟨_, hpar⟩ | ⟨_, j, hj1, _, hj3⟩
        · rw [hpar] at hp
          have := Option.some.inj hp
          omega
        · rw [hj3] at hp
          have := Option.some.inj hp
          omega)]
      simp [hc]
    · have hmapeq : (legKidSpec legKey (k + 2) rest).map (fun e =>
          (kidsWithTag (legendChildElems legKey k (s :: rest)) e.key
            "richcontent").map (fun x => x.notes)) =
          (legKidSpec legKey (k + 2) rest).map (fun e =>
            (kidsWithTag (legendChildElems legKey (k + 2) rest) e.key
              "richcontent").map (fun x => x.notes)) := by
        apply List.map_congr_left
        intro e he
        obtain ⟨hk1, _⟩ := legKidSpec_key_bounds legKey rest (k + 2) e he
        rw [hunf]
        rw [kidsWithTag_cons, if_neg (by simp <;> omega)]
        rw [kidsWithTag_cons, if_neg (by simp <;> omega)]
      rw [hmapeq, ih (k + 2) (by omega)
        (fun s' hs' => hall s' (by simp [hs']))]

theorem childNodes_eq (es : List XElem) (k : Nat) :
    childNodes es k = kidsWithTag es k "node" := rfl

theorem chKidSpec_length (chKey : Nat) :
    ∀ (l : List ChangeEntry) (k : Nat),
      (chKidSpec chKey k l).length = l.length := by
  intro l
  induction l with
  | nil => intro k; rfl
  | cons ch rest ih =>
    intro k
    simp only [chKidSpec, List.length_cons, ih]

/-! ## Claims -/

/-- C2 (amended): for every Property node visited, the Tree-Form builder
produces a mapping whose keys are exactly id, label, description,
cardinality, type and `is_cim_property` (plus `enum` when an enumeration
is present); the injected flag is surfaced under the key
`is_cim_property` (not `isInjected`), with value equal to the
property's was-injected flag. -/

theorem claim_C2_theorem (gl : String → String) (p : PropData) :
    fragKeys (propObj gl p) =
      ["id", "label", "description", "cardinality", "type",
       "is_cim_property"] ++
      (match p.enum with
       | some _ => ["enum"]
       | none => []) ∧
    lookupField (propObj gl p) "is_cim_property" =
      some (.jbool p.was_injected) ∧
    lookupField (propObj gl p) "isInjected" = none := by
  match hen : p.enum with
  | some en =>
    refine ⟨?_, ?_, ?_⟩ <;>
      simp [propObj, hen, fragKeys, lookupField, getVal]
  | none =>
    refine ⟨?_, ?_, ?_⟩ <;>
      simp [propObj, hen, fragKeys, lookupField, getVal]

/-- C2 counterexample: a property with the injected flag set carries no
`isInjected` key at all — the flag appears only as `is_cim_property` —
so the claimed key set (which includes `isInjected`) is wrong. -/

theorem claim_C2_counterexample :
    lookupField (propObj glId exC2Prop) "isInjected" = none ∧
    ("isInjected" ∈ fragKeys (propObj glId exC2Prop)) = False ∧
    lookupField (propObj glId exC2Prop) "is_cim_property" =
      some (.jbool true) := by
  refine ⟨rfl, by simp [propObj, fragKeys, exC2Prop, glId], rfl⟩

/-- C5 (amended): on enter of the Root node the Tree-Form builder
creates an ordered mapping whose fields are exactly id, label,
description, contact, authors, contributors, `project`, changeHistory
and subTopics (in that order, `subTopics` initially empty), and stores
it in the fragment cache keyed by the root's identity.  The source adds
a constant `project` field that the original claim omits. -/

theorem claim_C5_theorem (gl : String → String) (r : RootSpec) :
    fragKeys (rootObj gl r) =
      ["id", "label", "description", "contact", "authors", "contributors",
       "project", "changeHistory", "subTopics"] ∧
    lookupField (rootObj gl r) "subTopics" = some (.jarr []) ∧
    jsStep gl ⟨[]⟩ (.rootParse r) = .ok ⟨[(r.id, rootObj gl r)]⟩ := by
  exact ⟨rfl, rfl, rfl⟩

/-- C5 counterexample: the root fragment's key list is not the claimed
eight-field list — it additionally contains `project`. -/

theorem claim_C5_counterexample :
    fragKeys (rootObj glId exC5Root) ≠
      ["id", "label", "description", "contact", "authors", "contributors",
       "changeHistory", "subTopics"] ∧
    "project" ∈ fragKeys (rootObj glId exC5Root) := by
  constructor
  · intro hcontra
    simp [rootObj, fragKeys, exC5Root, glId] at hcontra
  · simp [rootObj, fragKeys, exC5Root, glId]

/-- C9: both generators are pure functions of the immutable input tree,
so two generation runs over equal inputs yield equal serialized output
text (byte-identical). -/

theorem claim_C9_theorem (gl : String → String) (template : String)
    (r r' : RootSpec) (h : r = r') :
    jsOutput gl template r = jsOutput gl template r' ∧
    mmOutput r = mmOutput r' := by
  subst h
  exact ⟨rfl, rfl⟩

theorem claim_C9_witness :
    exC9Root = exC9Root ∧
    (jsOutput glId "TOPIC" exC9Root = jsOutput glId "TOPIC" exC9Root ∧
     mmOutput exC9Root = mmOutput exC9Root) :=
  ⟨rfl, claim_C9_theorem glId "TOPIC" exC9Root exC9Root rfl⟩

/-- C10: when `_emit_node` runs for an owner with a style record and a
resolvable parent, it succeeds whether or not the owner exposes a `url`;
when the url is present its value is attached as the LINK attribute of
the created node, and when it is absent no LINK attribute is emitted —
absence is a normal branch, never a failure. -/

theorem claim_C10_theorem (st : MMState) (pr : ParentRef) (o : MMOwner)
    (text : Option String) (style : String) (cfg : StyleCfg) (pk : Nat)
    (hcfg : cfgFind o.typeKey = some cfg)
    (hpk : resolveParent st pr = .ok pk) :
    emitNode st pr o text style =
      .ok ⟨st.elems ++ emitNodeElems st.nextKey pk o text style cfg,
           st.nextKey + 3, setVal st.nodes o.oid st.nextKey⟩ ∧
    (∀ u, o.ourl = some u →
      ("LINK", u) ∈ nodeAttrsOf cfg style (text.getD o.oname) o.ourl) ∧
    (o.ourl = none →
      ∀ v, ("LINK", v) ∉ nodeAttrsOf cfg style (text.getD o.oname)
        o.ourl) := by
  refine ⟨emitNode_eq st pr o text style cfg pk hcfg hpk, ?_, ?_⟩
  · intro u hu
    simp [nodeAttrsOf, hu]
  · intro hu v
    simp [nodeAttrsOf, hu]

theorem claim_C10_witness :
    cfgFind exC10Owner.typeKey = some
      ⟨"#ccccff", true, "#000000", "courier", 12, false,
       "The grid used to layout the variables (e.g. the Global ENDGAME-grid)."⟩ ∧
    resolveParent ⟨[], 5, []⟩ (.elemKey 0) = .ok 0 ∧
    (emitNode ⟨[], 5, []⟩ (.elemKey 0) exC10Owner none "bubble" =
      .ok ⟨[] ++ emitNodeElems 5 0 exC10Owner none "bubble"
            ⟨"#ccccff", true, "#000000", "courier", 12, false,
             "The grid used to layout the variables (e.g. the Global ENDGAME-grid)."⟩,
           5 + 3, setVal [] exC10Owner.oid 5⟩ ∧
     (∀ u, exC10Owner.ourl = some u →
       ("LINK", u) ∈ nodeAttrsOf
         ⟨"#ccccff", true, "#000000", "courier", 12, false,
          "The grid used to layout the variables (e.g. the Global ENDGAME-grid)."⟩
         "bubble" (Option.getD none exC10Owner.oname) exC10Owner.ourl) ∧
     (exC10Owner.ourl = none →
       ∀ v, ("LINK", v) ∉ nodeAttrsOf
         ⟨"#ccccff", true, "#000000", "courier", 12, false,
          "The grid used to layout the variables (e.g. the Global ENDGAME-grid)."⟩
         "bubble" (Option.getD none exC10Owner.oname) exC10Owner.ourl)) := by
  refine ⟨rfl, rfl, ?_⟩
  exact claim_C10_theorem ⟨[], 5, []⟩ (.elemKey 0) exC10Owner none "bubble"
    _ 0 rfl rfl

/-- C4: for every Property node with an enumeration, the Tree-Form
property fragment's `type` field is the literal string "enum" (otherwise
it is the property's declared type name), and the fragment inlines an
enum fragment whose id, label, description and open-flag fields come
from the enumeration and whose `choices` list contains exactly one
`{description, value}` entry per choice of the enum, in declaration
order. -/

theorem claim_C4_theorem (gl : String → String) (p : PropData)
    (en : EnumData) (hen : p.enum = some en) :
    lookupField (propObj gl p) "type" = some (.jstr "enum") ∧
    lookupField (propObj gl p) "enum" = some (enumObj gl en) ∧
    lookupField (enumObj gl en) "id" = some (jOfOpt en.description) ∧
    lookupField (enumObj gl en) "label" = some (.jstr (gl en.name)) ∧
    lookupField (enumObj gl en) "description" =
      some (jOfOpt en.description) ∧
    lookupField (enumObj gl en) "is_open" = some (.jbool en.is_open) ∧
    lookupField (enumObj gl en) "choices" =
      some (.jarr (en.choices.map (fun c =>
        .jobj [("description", jOfOpt c.description),
               ("value", .jstr c.value)]))) ∧
    fieldLen (enumObj gl en) "choices" = some en.choices.length ∧
    (∀ q : PropData, q.enum = none →
      lookupField (propObj gl q) "type" = some (.jstr q.typeof) ∧
      lookupField (propObj gl q) "enum" = none) := by
  refine ⟨?_, ?_, rfl, rfl, rfl, rfl, rfl, ?_, ?_⟩
  · simp [propObj, hen, lookupField, getVal]
  · simp [propObj, hen, lookupField, getVal]
  · simp [enumObj, fieldLen, lookupField, getVal]
  · intro q hq
    exact ⟨by simp [propObj, hq, lookupField, getVal],
      by simp [propObj, hq, lookupField, getVal]⟩

theorem claim_C4_witness :
    exC4Prop.enum = some exC4Enum ∧
    (lookupField (propObj glId exC4Prop) "type" = some (.jstr "enum") ∧
     lookupField (propObj glId exC4Prop) "enum" =
       some (enumObj glId exC4Enum) ∧
     lookupField (enumObj glId exC4Enum) "id" =
       some (jOfOpt exC4Enum.description) ∧
     lookupField (enumObj glId exC4Enum) "label" =
       some (.jstr (glId exC4Enum.name)) ∧
     lookupField (enumObj glId exC4Enum) "description" =
       some (jOfOpt exC4Enum.description) ∧
     lookupField (enumObj glId exC4Enum) "is_open" =
       some (.jbool exC4Enum.is_open) ∧
     lookupField (enumObj glId exC4Enum) "choices" =
       some (.jarr (exC4Enum.choices.map (fun c =>
         .jobj [("description", jOfOpt c.description),
                ("value", .jstr c.value)]))) ∧
     fieldLen (enumObj glId exC4Enum) "choices" =
       some exC4Enum.choices.length ∧
     (∀ q : PropData, q.enum = none →
       lookupField (propObj glId q) "type" = some (.jstr q.typeof) ∧
       lookupField (propObj glId q) "enum" = none)) :=
  ⟨rfl, claim_C4_theorem glId exC4Prop exC4Enum rfl⟩

/-- C1 (amended): for every well-formed specialization tree, the
Tree-Form output is exactly the root fragment `rootFull`: one fragment
per Root, Topic, Property and per-property Enum node (choices inlined as
one `{description, value}` entry each), with `subTopics` length equal to
the root's sub-topic count and `choices` length equal to the enum's
choice count, but a topic's `properties` list gathers every Property in
the topic's whole subtree (via the `root_topic` back-reference), and
Subprocess and PropertySet nodes contribute no fragment of their own. -/

theorem claim_C1_theorem (gl : String → String) (r : RootSpec)
    (h : WFjs r) :
    jsFinalFrag gl r = some (rootFull gl r) ∧
    fieldLen (rootFull gl r) "subTopics" = some r.sub_topics.length ∧
    (∀ t ∈ r.sub_topics, fieldLen (topicFull gl t) "properties" =
      some (topicProps t).length) ∧
    (∀ (p : PropData) (en : EnumData), p.enum = some en →
      fieldLen (enumObj gl en) "choices" = some en.choices.length) := by
  refine ⟨?_, ?_, ?_, ?_⟩
  · unfold jsFinalFrag
    rw [jsRun_eq gl r h]
    simp [getVal]
  · simp [rootFull, rootPre, fieldLen, lookupField, getVal]
  · intro t _
    simp [topicFull, topicPre, fieldLen, lookupField, getVal]
  · intro p en _
    simp [enumObj, fieldLen, lookupField, getVal]

theorem claim_C1_witness :
    WFjs exC1Root ∧
    (jsFinalFrag glId exC1Root = some (rootFull glId exC1Root) ∧
     fieldLen (rootFull glId exC1Root) "subTopics" =
       some exC1Root.sub_topics.length ∧
     (∀ t ∈ exC1Root.sub_topics, fieldLen (topicFull glId t) "properties" =
       some (topicProps t).length) ∧
     (∀ (p : PropData) (en : EnumData), p.enum = some en →
       fieldLen (enumObj glId en) "choices" = some en.choices.length)) :=
  ⟨by unfold WFjs; decide, claim_C1_theorem glId exC1Root
    (by unfold WFjs; decide)⟩

/-- C1 counterexample: in the tree with one process topic containing one
subprocess that owns one property, the output has no fragment at all for
the subprocess (`r.t.s`), and the topic's `properties` list has length 1
although the topic has 0 direct Property children — so neither "exactly
one fragment per Subprocess node" nor "`properties` length equals the
child count" holds. -/

theorem claim_C1_counterexample :
    countObjs "r.t.s" (jsFragOf glId exC1Root) = 0 ∧
    fieldLen (jsFragOf glId exC1Root) "subTopics" = some 1 ∧
    (match lookupField (jsFragOf glId exC1Root) "subTopics" with
     | some (.jarr [tf]) => fieldLen tf "properties"
     | _ => none) = some 1 ∧
    directPropCount exC1Topic = 0 := by
  have hfrag : jsFragOf glId exC1Root =
      .jobj [("id", .jstr "r"), ("label", .jstr "r"),
             ("description", .jnull), ("contact", .jstr ""),
             ("authors", .jarr [.jstr "a"]),
             ("contributors", .jarr [.jstr ""]),
             ("project", .jstr "cordex"),
             ("changeHistory", .jarr []),
             ("subTopics", .jarr
               [.jobj [("id", .jstr "r.t"), ("label", .jstr "t"),
                       ("description", .jnull), ("contact", .jstr ""),
                       ("properties", .jarr
                         [.jobj [("id", .jstr "r.t.s.p"),
                                 ("label", .jstr "p"),
                                 ("description", .jnull),
                                 ("cardinality", .jstr "1.1"),
                                 ("type", .jstr "str"),
                                 ("is_cim_property",
                                   .jbool false)]])]])] := rfl
  refine ⟨?_, ?_, ?_, rfl⟩
  · rw [hfrag]
    simp [countObjs, countObjsList, countObjsFields, isIdStr, getVal]
  · rw [hfrag]
    rfl
  · rw [hfrag]
    rfl

/-- C6 (amended): every graph node the Graph-Form builder creates for a
model node is decorated with exactly one font sub-element taken from its
kind's style record, and with its kind's number of notes blocks: one for
every kind except process topics and properties, which receive two
identical notes blocks (their handlers emit the notes a second time
after `_emit_node` already did).  Default notes are Description and
Spec. ID; Property nodes additionally get Type, Cardinality and
Specialization ID; the document root additionally gets Contact, Authors
and Contributors. -/

theorem claim_C6_theorem (r : RootSpec) (st : MMState)
    (h : mmRun r = .ok st) :
    (∀ e ∈ st.elems, ∀ o, e.src = some o → e.tag = "node" →
      (kidsWithTag st.elems e.key "font").map (fun x => x.attrs) =
        [fontAttrsOf o] ∧
      (kidsWithTag st.elems e.key "richcontent").map (fun x => x.notes) =
        List.replicate (noteBlocks o) (getNotes o)) ∧
    (∀ p : PropData, (getNotes (.ofProp p)).map Prod.fst =
      ["Description", "Spec. ID", "Type", "Cardinality",
       "Specialization ID"]) ∧
    (∀ r' : RootSpec, (getNotes (.ofRoot r')).map Prod.fst =
      ["Description", "Spec. ID", "Contact", "Authors", "Contributors"]) ∧
    (∀ t : Topic, (getNotes (.ofTopic t)).map Prod.fst =
      ["Description", "Spec. ID"]) ∧
    (∀ s : SubData, (getNotes (.ofSub s)).map Prod.fst =
      ["Description", "Spec. ID"]) ∧
    (∀ ps : PSData, (getNotes (.ofPS ps)).map Prod.fst =
      ["Description", "Spec. ID"]) ∧
    (∀ c : ChoiceData, (getNotes (.ofChoice c)).map Prod.fst =
      ["Description", "Spec. ID"]) := by
  refine ⟨(mmRun_invariants r st h).2.1, ?_, ?_, ?_, ?_, ?_, ?_⟩ <;>
    (intro x; rfl)

theorem claim_C6_witness :
    mmRun exC6Root = .ok (mmStOf exC6Root) ∧
    ((∀ e ∈ (mmStOf exC6Root).elems, ∀ o, e.src = some o →
      e.tag = "node" →
      (kidsWithTag (mmStOf exC6Root).elems e.key "font").map
        (fun x => x.attrs) = [fontAttrsOf o] ∧
      (kidsWithTag (mmStOf exC6Root).elems e.key "richcontent").map
        (fun x => x.notes) =
        List.replicate (noteBlocks o) (getNotes o)) ∧
     (∀ p : PropData, (getNotes (.ofProp p)).map Prod.fst =
       ["Description", "Spec. ID", "Type", "Cardinality",
        "Specialization ID"]) ∧
     (∀ r' : RootSpec, (getNotes (.ofRoot r')).map Prod.fst =
       ["Description", "Spec. ID", "Contact", "Authors",
        "Contributors"]) ∧
     (∀ t : Topic, (getNotes (.ofTopic t)).map Prod.fst =
       ["Description", "Spec. ID"]) ∧
     (∀ s : SubData, (getNotes (.ofSub s)).map Prod.fst =
       ["Description", "Spec. ID"]) ∧
     (∀ ps : PSData, (getNotes (.ofPS ps)).map Prod.fst =
       ["Description", "Spec. ID"]) ∧
     (∀ c : ChoiceData, (getNotes (.ofChoice c)).map Prod.fst =
       ["Description", "Spec. ID"])) :=
  ⟨rfl, claim_C6_theorem exC6Root (mmStOf exC6Root) rfl⟩

/-- C6 counterexample: in the tree with one process topic, the run
completes and exactly one model-node element (the process's node, key
22, text "t") has a number of notes blocks different from one — it has
two — refuting "exactly one notes block" for every created node. -/

theorem claim_C6_counterexample :
    mmOk exC6Root = true ∧
    ((mmElems exC6Root).filter (fun e =>
      e.src.isSome && (e.tag == "node") &&
      decide ((kidsWithTag (mmElems exC6Root) e.key "richcontent").length
        ≠ 1))).length = 1 ∧
    ((mmElems exC6Root).filter (fun e => e.key == 22)).map
      (fun e => (e.tag, getVal e.attrs "TEXT")) = [("node", some "t")] ∧
    (kidsWithTag (mmElems exC6Root) 22 "richcontent").length = 2 := by
  exact ⟨rfl, rfl, rfl, rfl⟩

/-- C3 (amended): a PropertySet whose members are inherited and a
Property flagged as injected produce no graph node and receive no
decoration — nothing in any completed Graph-Form output was created for
a suppressed node.  But the suppressed node's subtree is not skipped:
its events still reach the builder and fail the parent-cache lookup, so
a tree containing a choice of an injected property's enum (node ids
distinct) aborts the whole run with a lookup error instead of completing
without those nodes; in no case does such a subtree produce graph
nodes. -/

theorem claim_C3_theorem (r : RootSpec) (p : PropData) (en : EnumData)
    (c : ChoiceData) (hp : p ∈ treeProps r) (hinj : p.was_injected = true)
    (hen : p.enum = some en) (hc : c ∈ en.choices)
    (hid : p.id ∉ emittableIds r) :
    (∀ r' : RootSpec, ∀ e ∈ mmElems r', suppressedSrc e = false) ∧
    (∀ st, mmRun r ≠ .ok st) := by
  constructor
  · intro r' e he
    unfold mmElems at he
    match hr : mmRun r' with
    | .error msg => rw [hr] at he; simp at he
    | .ok st =>
      rw [hr] at he
      exact (mmRun_invariants r' st hr).2.2 e he
  · intro st hok
    have hmem : Event.enumChoiceParse c p.id ∈ rootEvents r :=
      choiceEvent_mem r p en c hp hen hc
    obtain ⟨l1, l2, hdecomp⟩ := List.append_of_mem hmem
    unfold mmRun at hok
    rw [hdecomp] at hok
    refine mmRun_err_of_orphan_choice r.id c p.id l1 l2 ⟨[], 0, []⟩
      rfl ?_ st hok
    intro ev hev hiev
    apply hid
    unfold emittableIds
    rw [List.mem_flatten]
    refine ⟨evIds ev, List.mem_map_of_mem _ ?_, hiev⟩
    rw [hdecomp]
    simp [hev]

theorem claim_C3_witness :
    exC3Prop ∈ treeProps exC3Root ∧
    exC3Prop.was_injected = true ∧
    exC3Prop.enum = some exC3Enum ∧
    exC3Choice ∈ exC3Enum.choices ∧
    exC3Prop.id ∉ emittableIds exC3Root ∧
    ((∀ r' : RootSpec, ∀ e ∈ mmElems r', suppressedSrc e = false) ∧
     (∀ st, mmRun exC3Root ≠ .ok st)) :=
  ⟨by decide, rfl, rfl, by decide, by decide,
   claim_C3_theorem exC3Root exC3Prop exC3Enum exC3Choice (by decide) rfl
     rfl (by decide) (by decide)⟩

/-- C3 counterexample: the tree whose grid topic holds one injected
property carrying an enum with one choice.  The claim says the builder
skips the suppressed property's subtree; instead the choice's event
reaches the builder and the run aborts with the parent-cache KeyError on
the suppressed property's id. -/

theorem claim_C3_counterexample :
    mmRun exC3Root = .error "KeyError: r.g.p2" := rfl

theorem rootBlock_zero (r : RootSpec) (cfg : StyleCfg) :
    rootBlock 0 r cfg =
      ⟨0, none, "map", [], [], none⟩ ::
      (emitNodeElems 1 0 (.ofRoot r) none "fork" cfg ++
       chSectionElems 4 1 r.change_history ++
       legSectionElems (5 + 2 * r.change_history.length) 1) := by
  simp [rootBlock]

theorem chKidSpec_texts (chKey : Nat) :
    ∀ (l : List ChangeEntry) (k : Nat),
      (chKidSpec chKey k l).map (fun e => getVal e.attrs "TEXT") =
        l.map (fun ch => some ch.version) := by
  intro l
  induction l with
  | nil => intro k; rfl
  | cons ch rest ih =>
    intro k
    simp only [chKidSpec, List.map_cons, ih (k + 2), List.cons.injEq]
    exact ⟨rfl, trivial⟩

theorem legKidSpec_attrs (legKey : Nat) :
    ∀ (secs : List String) (k : Nat), (∀ s ∈ secs, (cfgFind s).isSome) →
      (legKidSpec legKey k secs).length = secs.length ∧
      (legKidSpec legKey k secs).map (fun e => getVal e.attrs "TEXT") =
        secs.map some ∧
      (legKidSpec legKey k secs).map (fun e =>
        (getVal e.attrs "BACKGROUND_COLOR", getVal e.attrs "COLOR")) =
        secs.map (fun s =>
          match cfgFind s with
          | some cfg => (some cfg.bgColor, some cfg.fontColor)
          | none => (none, none)) := by
  intro secs
  induction secs with
  | nil => intro k _; exact ⟨rfl, rfl, rfl⟩
  | cons s rest ih =>
    intro k hall
    obtain ⟨cfg, hc⟩ := Option.isSome_iff_exists.mp (hall s (by simp))
    obtain ⟨ih1, ih2, ih3⟩ :=
      ih (k + 2) (fun s' hs' => hall s' (by simp [hs']))
    refine ⟨?_, ?_, ?_⟩
    · simp only [legKidSpec, hc, List.length_cons, ih1]
    · simp only [legKidSpec, hc, List.map_cons, ih2, List.cons.injEq]
      exact ⟨rfl, trivial⟩
    · simp only [legKidSpec, hc, List.map_cons, ih3, List.cons.injEq]
      exact ⟨rfl, trivial⟩

theorem mmRun_chSection (r : RootSpec) (st : MMState)
    (h : mmRun r = .ok st) :
    (⟨4, some 1, "node",
      [("FOLDED", "true"), ("STYLE", "bubble"),
       ("TEXT", "CHANGE HISTORY"), ("POSITION", "left")], [], none⟩ :
      XElem) ∈ st.elems ∧
    childNodes st.elems 4 = chKidSpec 4 5 r.change_history ∧
    (chKidSpec 4 5 r.change_history).map (fun e =>
      (kidsWithTag st.elems e.key "richcontent").map (fun x => x.notes)) =
      r.change_history.map (fun ch => [chNotes ch]) := by
  obtain ⟨cfg, hcfg, ext, hel, hext⟩ := mmRun_prefix r st h
  rw [rootBlock_zero] at hel
  have hchsec : chSectionElems 4 1 r.change_history =
      ⟨4, some 1, "node",
        [("FOLDED", "true"), ("STYLE", "bubble"),
         ("TEXT", "CHANGE HISTORY"), ("POSITION", "left")], [], none⟩ ::
      chChildElems 4 5 r.change_history := rfl
  have hlegsec : legSectionElems (5 + 2 * r.change_history.length) 1 =
      ⟨5 + 2 * r.change_history.length, some 1, "node",
        [("FOLDED", "true"), ("STYLE", "bubble"),
         ("TEXT", "LEGEND"), ("POSITION", "left")], [], none⟩ ::
      legendChildElems (5 + 2 * r.change_history.length)
        (5 + 2 * r.change_history.length + 1) SECTIONS := rfl
  refine ⟨?_, ?_, ?_⟩
  · rw [hel, hchsec]
    simp
  · rw [childNodes_eq, hel, kidsWithTag_append]
    rw [kidsWithTag_nil_of ext 4 "node" (by
      intro e he hcon
      obtain ⟨hk, hpk⟩ := hext e he
      rcases hpk 4 hcon.1 with h1 | h1 <;> omega)]
    rw [kidsWithTag_cons, if_neg (by simp)]
    rw [kidsWithTag_append, kidsWithTag_append]
    rw [kidsWithTag_nil_of (emitNodeElems 1 0 (.ofRoot r) none "fork" cfg)
      4 "node" (by
        intro e he hcon
        simp only [emitNodeElems, List.mem_cons, List.not_mem_nil,
          or_false] at he
        rcases he with he | he | he <;> subst he <;> simp at hcon)]
    rw [hchsec, kidsWithTag_cons, if_neg (by simp)]
    rw [hlegsec, kidsWithTag_cons, if_neg (by simp)]
    rw [kidsWithTag_nil_of (legendChildElems
        (5 + 2 * r.change_history.length)
        (5 + 2 * r.change_history.length + 1) SECTIONS) 4 "node" (by
      intro e he hcon
      obtain ⟨_, _, _, _, h5⟩ := legendChildElems_facts
        (5 + 2 * r.change_history.length) SECTIONS
        (5 + 2 * r.change_history.length + 1) e he
      rcases h5 with ⟨_, hpar⟩ | ⟨_, j, hj1, _, hj3⟩
      · rw [hpar] at hcon
        have := Option.some.inj hcon.1
        omega
      · rw [hj3] at hcon
        have := Option.some.inj hcon.1
        omega)]
    rw [← childNodes_eq,
      childNodes_chChildElems 4 r.change_history 5 (by omega)]
    simp
  · have hmap : (chKidSpec 4 5 r.change_history).map (fun e =>
        (kidsWithTag st.elems e.key "richcontent").map (fun x => x.notes)) =
        (chKidSpec 4 5 r.change_history).map (fun e =>
          (kidsWithTag (chChildElems 4 5 r.change_history) e.key
            "richcontent").map (fun x => x.notes)) := by
      apply List.map_congr_left
      intro e he
      obtain ⟨hk1, hk2⟩ := chKidSpec_key_bounds 4 r.change_history 5 e he
      rw [hel, kidsWithTag_append]
      rw [kidsWithTag_nil_of ext e.key "richcontent" (by
        intro e' he' hcon
        obtain ⟨hk, hpk⟩ := hext e' he'
        rcases hpk e.key hcon.1 with h1 | h1 <;> omega)]
      rw [kidsWithTag_cons, if_neg (by simp)]
      rw [kidsWithTag_append, kidsWithTag_append]
      rw [kidsWithTag_nil_of (emitNodeElems 1 0 (.ofRoot r) none "fork" cfg)
        e.key "richcontent" (by
          intro e' he' hcon
          simp only [emitNodeElems, List.mem_cons, List.not_mem_nil,
            or_false] at he'
          rcases he' with he' | he' | he' <;> subst he' <;>
            simp at hcon <;> omega)]
      rw [hchsec, kidsWithTag_cons, if_neg (by simp)]
      rw [hlegsec, kidsWithTag_cons, if_neg (by simp)]
      rw [kidsWithTag_nil_of (legendChildElems
          (5 + 2 * r.change_history.length)
          (5 + 2 * r.change_history.length + 1) SECTIONS) e.key
          "richcontent" (by
        intro e' he' hcon
        obtain ⟨_, _, _, _, h5⟩ := legendChildElems_facts
          (5 + 2 * r.change_history.length) SECTIONS
          (5 + 2 * r.change_history.length + 1) e' he'
        rcases h5 with ⟨_, hpar⟩ | ⟨_, j, hj1, _, hj3⟩
        · rw [hpar] at hcon
          have := Option.some.inj hcon.1
          omega
        · rw [hj3] at hcon
          have := Option.some.inj hcon.1
          omega)]
      simp
    rw [hmap]
    exact chChild_notes 4 r.change_history 5 (by omega)

theorem mmRun_legSection (r : RootSpec) (st : MMState)
    (h : mmRun r = .ok st) :
    (⟨5 + 2 * r.change_history.length, some 1, "node",
      [("FOLDED", "true"), ("STYLE", "bubble"),
       ("TEXT", "LEGEND"), ("POSITION", "left")], [], none⟩ : XElem)
      ∈ st.elems ∧
    childNodes st.elems (5 + 2 * r.change_history.length) =
      legKidSpec (5 + 2 * r.change_history.length)
        (5 + 2 * r.change_history.length + 1) SECTIONS ∧
    (legKidSpec (5 + 2 * r.change_history.length)
        (5 + 2 * r.change_history.length + 1) SECTIONS).map (fun e =>
      (kidsWithTag st.elems e.key "richcontent").map (fun x => x.notes)) =
      SECTIONS.map (fun s =>
        [[("Description",
            match cfgFind s with
            | some cfg => cfg.descr
            | none => "")]]) := by
  obtain ⟨cfg, hcfg, ext, hel, hext⟩ := mmRun_prefix r st h
  rw [rootBlock_zero] at hel
  have hchsec : chSectionElems 4 1 r.change_history =
      ⟨4, some 1, "node",
        [("FOLDED", "true"), ("STYLE", "bubble"),
         ("TEXT", "CHANGE HISTORY"), ("POSITION", "left")], [], none⟩ ::
      chChildElems 4 5 r.change_history := rfl
  have hlegsec : legSectionElems (5 + 2 * r.change_history.length) 1 =
      ⟨5 + 2 * r.change_history.length, some 1, "node",
        [("FOLDED", "true"), ("STYLE", "bubble"),
         ("TEXT", "LEGEND"), ("POSITION", "left")], [], none⟩ ::
      legendChildElems (5 + 2 * r.change_history.length)
        (5 + 2 * r.change_history.length + 1) SECTIONS := rfl
  refine ⟨?_, ?_, ?_⟩
  · rw [hel, hlegsec]
    simp
  · rw [childNodes_eq, hel, kidsWithTag_append]
    rw [kidsWithTag_nil_of ext (5 + 2 * r.change_history.length) "node" (by
      intro e he hcon
      obtain ⟨hk, hpk⟩ := hext e he
      rcases hpk (5 + 2 * r.change_history.length) hcon.1 with h1 | h1 <;>
        omega)]
    rw [kidsWithTag_cons, if_neg (by simp)]
    rw [kidsWithTag_append, kidsWithTag_append]
    rw [kidsWithTag_nil_of (emitNodeElems 1 0 (.ofRoot r) none "fork" cfg)
      (5 + 2 * r.change_history.length) "node" (by
        intro e he hcon
        simp only [emitNodeElems, List.mem_cons, List.not_mem_nil,
          or_false] at he
        rcases he with he | he | he <;> subst he <;>
          simp at hcon <;> omega)]
    rw [hchsec, kidsWithTag_cons, if_neg (by simp <;> omega)]
    rw [kidsWithTag_nil_of (chChildElems 4 5 r.change_history)
      (5 + 2 * r.change_history.length) "node" (by
        intro e he hcon
        obtain ⟨_, hk2, _, _, h5⟩ :=
          chChildElems_facts 4 r.change_history 5 e he
        rcases h5 with ⟨_, hpar⟩ | ⟨_, j, hj1, hj2, hj3⟩
        · rw [hpar] at hcon
          have := Option.some.inj hcon.1
          omega
        · rw [hj3] at hcon
          have := Option.some.inj hcon.1
          omega)]
    rw [hlegsec, kidsWithTag_cons, if_neg (by simp <;> omega)]
    rw [← childNodes_eq,
      childNodes_legendChildElems (5 + 2 * r.change_history.length)
        SECTIONS (5 + 2 * r.change_history.length + 1) (by omega)]
    simp
  · have hsl : SECTIONS.length = 8 := rfl
    have hmap : (legKidSpec (5 + 2 * r.change_history.length)
        (5 + 2 * r.change_history.length + 1) SECTIONS).map (fun e =>
        (kidsWithTag st.elems e.key "richcontent").map (fun x => x.notes)) =
        (legKidSpec (5 + 2 * r.change_history.length)
          (5 + 2 * r.change_history.length + 1) SECTIONS).map (fun e =>
          (kidsWithTag (legendChildElems (5 + 2 * r.change_history.length)
            (5 + 2 * r.change_history.length + 1) SECTIONS) e.key
            "richcontent").map (fun x => x.notes)) := by
      apply List.map_congr_left
      intro e he
      obtain ⟨hk1, hk2⟩ := legKidSpec_key_bounds
        (5 + 2 * r.change_history.length) SECTIONS
        (5 + 2 * r.change_history.length + 1) e he
      rw [hsl] at hk2
      rw [hel, kidsWithTag_append]
      rw [kidsWithTag_nil_of ext e.key "richcontent" (by
        intro e' he' hcon
        obtain ⟨hk, hpk⟩ := hext e' he'
        rcases hpk e.key hcon.1 with h1 | h1 <;> omega)]
      rw [kidsWithTag_cons, if_neg (by simp)]
      rw [kidsWithTag_append, kidsWithTag_append]
      rw [kidsWithTag_nil_of (emitNodeElems 1 0 (.ofRoot r) none "fork" cfg)
        e.key "richcontent" (by
          intro e' he' hcon
          simp only [emitNodeElems, List.mem_cons, List.not_mem_nil,
            or_false] at he'
          rcases he' with he' | he' | he' <;> subst he' <;>
            simp at hcon <;> omega)]
      rw [hchsec, kidsWithTag_cons, if_neg (by simp)]
      rw [kidsWithTag_nil_of (chChildElems 4 5 r.change_history) e.key
        "richcontent" (by
          intro e' he' hcon
          obtain ⟨_, hkk, _, _, h5⟩ :=
            chChildElems_facts 4 r.change_history 5 e' he'
          rcases h5 with ⟨_, hpar⟩ | ⟨_, j, hj1, hj2, hj3⟩
          · rw [hpar] at hcon
            have := Option.some.inj hcon.1
            omega
          · rw [hj3] at hcon
            have := Option.some.inj hcon.1
            omega)]
      rw [hlegsec, kidsWithTag_cons, if_neg (by simp <;> omega)]
      simp
    rw [hmap]
    exact legChild_notes (5 + 2 * r.change_history.length) SECTIONS
      (5 + 2 * r.change_history.length + 1) (by omega) SECTIONS_cfg_isSome

/-- C7: for every successfully rendered root with N change-history
entries, the Graph-Form output has a "CHANGE HISTORY" section node under
the root's node, with exactly N node children — one per entry, in
order, labelled with the entry's version — and each child carries one
notes block holding all four fields in the literal order Version, Date,
Person, Comment with the entry's values. -/

theorem claim_C7_theorem (r : RootSpec) (st : MMState)
    (h : mmRun r = .ok st) :
    (⟨4, some 1, "node",
      [("FOLDED", "true"), ("STYLE", "bubble"),
       ("TEXT", "CHANGE HISTORY"), ("POSITION", "left")], [], none⟩ :
      XElem) ∈ st.elems ∧
    (childNodes st.elems 4).length = r.change_history.length ∧
    (childNodes st.elems 4).map (fun e => getVal e.attrs "TEXT") =
      r.change_history.map (fun ch => some ch.version) ∧
    (childNodes st.elems 4).map (fun e =>
      (kidsWithTag st.elems e.key "richcontent").map (fun x => x.notes)) =
      r.change_history.map (fun ch =>
        [[("Version", ch.version), ("Date", ch.date),
          ("Person", ch.author), ("Comment", ch.note)]]) := by
  obtain ⟨hmem, hkids, hnotes⟩ := mmRun_chSection r st h
  refine ⟨hmem, ?_, ?_, ?_⟩
  · rw [hkids, chKidSpec_length]
  · rw [hkids, chKidSpec_texts]
  · rw [hkids]
    exact hnotes.trans (List.map_congr_left (fun ch _ => rfl))

theorem claim_C7_witness :
    mmRun exC7Root = .ok (mmStOf exC7Root) ∧
    ((⟨4, some 1, "node",
       [("FOLDED", "true"), ("STYLE", "bubble"),
        ("TEXT", "CHANGE HISTORY"), ("POSITION", "left")], [], none⟩ :
       XElem) ∈ (mmStOf exC7Root).elems ∧
     (childNodes (mmStOf exC7Root).elems 4).length =
       exC7Root.change_history.length ∧
     (childNodes (mmStOf exC7Root).elems 4).map
       (fun e => getVal e.attrs "TEXT") =
       exC7Root.change_history.map (fun ch => some ch.version) ∧
     (childNodes (mmStOf exC7Root).elems 4).map (fun e =>
       (kidsWithTag (mmStOf exC7Root).elems e.key "richcontent").map
         (fun x => x.notes)) =
       exC7Root.change_history.map (fun ch =>
         [[("Version", ch.version), ("Date", ch.date),
           ("Person", ch.author), ("Comment", ch.note)]])) :=
  ⟨rfl, claim_C7_theorem exC7Root (mmStOf exC7Root) rfl⟩

/-- C8: for every successfully rendered tree, the Graph-Form output has
a "LEGEND" section node under the root's node with exactly one node
child per entry of the fixed section-kind table `_SECTIONS` (eight
entries, in table order, regardless of which kinds occur in the tree),
each labelled with the kind, styled with the kind's background and font
colours from the configuration table, and annotated with one notes
block holding that kind's Description text. -/

theorem claim_C8_theorem (r : RootSpec) (st : MMState)
    (h : mmRun r = .ok st) :
    (⟨5 + 2 * r.change_history.length, some 1, "node",
      [("FOLDED", "true"), ("STYLE", "bubble"),
       ("TEXT", "LEGEND"), ("POSITION", "left")], [], none⟩ : XElem)
      ∈ st.elems ∧
    (childNodes st.elems (5 + 2 * r.change_history.length)).length =
      SECTIONS.length ∧
    SECTIONS.length = 8 ∧
    (childNodes st.elems (5 + 2 * r.change_history.length)).map
      (fun e => getVal e.attrs "TEXT") = SECTIONS.map some ∧
    (childNodes st.elems (5 + 2 * r.change_history.length)).map (fun e =>
      (getVal e.attrs "BACKGROUND_COLOR", getVal e.attrs "COLOR")) =
      SECTIONS.map (fun s =>
        match cfgFind s with
        | some cfg => (some cfg.bgColor, some cfg.fontColor)
        | none => (none, none)) ∧
    (childNodes st.elems (5 + 2 * r.change_history.length)).map (fun e =>
      (kidsWithTag st.elems e.key "richcontent").map (fun x => x.notes)) =
      SECTIONS.map (fun s =>
        [[("Description",
            match cfgFind s with
            | some cfg => cfg.descr
            | none => "")]]) := by
  obtain ⟨hmem, hkids, hnotes⟩ := mmRun_legSection r st h
  obtain ⟨hlen, htext, hcol⟩ := legKidSpec_attrs
    (5 + 2 * r.change_history.length) SECTIONS
    (5 + 2 * r.change_history.length + 1) SECTIONS_cfg_isSome
  refine ⟨hmem, ?_, rfl, ?_, ?_, ?_⟩
  · rw [hkids, hlen]
  · rw [hkids, htext]
  · rw [hkids, hcol]
  · rw [hkids]
    exact hnotes

theorem claim_C8_witness :
    mmRun exC8Root = .ok (mmStOf exC8Root) ∧
    ((⟨5 + 2 * exC8Root.change_history.length, some 1, "node",
       [("FOLDED", "true"), ("STYLE", "bubble"),
        ("TEXT", "LEGEND"), ("POSITION", "left")], [], none⟩ : XElem)
       ∈ (mmStOf exC8Root).elems ∧
     (childNodes (mmStOf exC8Root).elems
       (5 + 2 * exC8Root.change_history.length)).length =
       SECTIONS.length ∧
     SECTIONS.length = 8 ∧
     (childNodes (mmStOf exC8Root).elems
       (5 + 2 * exC8Root.change_history.length)).map
       (fun e => getVal e.attrs "TEXT") = SECTIONS.map some ∧
     (childNodes (mmStOf exC8Root).elems
       (5 + 2 * exC8Root.change_history.length)).map (fun e =>
       (getVal e.attrs "BACKGROUND_COLOR", getVal e.attrs "COLOR")) =
       SECTIONS.map (fun s =>
         match cfgFind s with
         | some cfg => (some cfg.bgColor, some cfg.fontColor)
         | none => (none, none)) ∧
     (childNodes (mmStOf exC8Root).elems
       (5 + 2 * exC8Root.change_history.length)).map (fun e =>
       (kidsWithTag (mmStOf exC8Root).elems e.key "richcontent").map
         (fun x => x.notes)) =
       SECTIONS.map (fun s =>
         [[("Description",
             match cfgFind s with
             | some cfg => cfg.descr
             | none => "")]])) :=
  ⟨rfl, claim_C8_theorem exC8Root (mmStOf exC8Root) rfl⟩
